import Mathlib

/-!
Readability analyzer (`readability.c`).

A shallow embedding of the scan-and-classify routine of `readability.c`.

* The text is a `List Char`: the characters `x[0] .. x[len-1]` that `strlen`
  delimits.  Indexing is checked (`x[i]?`), so that a read outside the text
  would make the scan return `none`.
* The three counters are C `int`s that are only ever incremented, at most
  once per loop iteration, so none exceeds the text length; they are modelled
  as `Nat`.  The index is modelled as an unbounded `Int`; it fits in a 32-bit
  `int` for every text shorter than `2^26` characters.
* `float`/`double` arithmetic is modelled exactly as IEEE-754 binary32 and
  binary64 round-to-nearest-even arithmetic on finite values `m * 2^e`, each
  operation evaluated in the precision of its C type; a non-finite result
  (the division by a zero word count) is `none`.
* What `get_string` prints (the prompt) is not part of the model: `main` is
  what the program prints after the text has been read.
-/

namespace Readability

/-! ## The scan loop -/

/-- The three counters `num_letters`, `num_words`, `num_sentences`. -/
structure Counts where
  letters : Nat
  words : Nat
  sentences : Nat
deriving DecidableEq, Repr

/-- The `isalpha` of `<ctype.h>` in the "C" locale: the 52 ASCII letters. -/
def isalpha (c : Char) : Bool :=
  ('A' ≤ c && c ≤ 'Z') || ('a' ≤ c && c ≤ 'z')

/-- The guard of the word counter,
`(i == 0 && x[i] != ' ') || (i != len - 1 && x[i] == ' ' && x[i + 1] != ' ')`,
with the short-circuit evaluation order of `&&` and `||`: a character is read
only when the conditions to its left let the evaluation reach it. -/
def wordStart (x : List Char) (len i : Nat) : Option Bool := do
  let first ← if i = 0 then (do let c ← x[i]?; pure (c != ' ')) else pure false
  if first then pure true
  else if i != len - 1 then do
    let c ← x[i]?
    if c == ' ' then do
      let d ← x[i + 1]?
      pure (d != ' ')
    else pure false
  else pure false

/-- The test of the sentence counter, `c == '.' || c == '?' || c == '!'`. -/
def isTerminator (c : Char) : Bool :=
  c == '.' || c == '?' || c == '!'

/-- One iteration of the `for` loop at index `i`: the three `if` statements in
source order. -/
def scanBody (x : List Char) (len : Nat) (c : Counts) (i : Nat) : Option Counts := do
  let a ← x[i]?
  let c1 := if isalpha a then { c with letters := c.letters + 1 } else c
  let w ← wordStart x len i
  let c2 := if w then { c1 with words := c1.words + 1 } else c1
  let b ← x[i]?
  let c3 := if isTerminator b then { c2 with sentences := c2.sentences + 1 } else c2
  pure c3

/-- The loop `for (int i = 0, len = strlen(x); i < len; i++)` started from
`num_words = num_sentences = num_letters = 0`. -/
def scan (x : List Char) : Option Counts :=
  (List.range x.length).foldlM (scanBody x x.length) ⟨0, 0, 0⟩

/-! ## Reference counts, by recursion on the text -/

/-- An ASCII letter, by character code: `A`-`Z` is 65-90 and `a`-`z` is 97-122. -/
def isAsciiLetter (c : Char) : Bool :=
  (65 ≤ c.toNat && c.toNat ≤ 90) || (97 ≤ c.toNat && c.toNat ≤ 122)

/-- Number of positions `i` with `x[i] = ' '` and `x[i+1] ≠ ' '`. -/
def transitions : List Char → Nat
  | a :: b :: t => (if a = ' ' ∧ b ≠ ' ' then 1 else 0) + transitions (b :: t)
  | _ => 0

/-- One if the text starts with a non-space character, else zero. -/
def headWord : List Char → Nat
  | [] => 0
  | a :: _ => if a ≠ ' ' then 1 else 0

/-- The words of a text: its maximal runs of non-space characters. -/
def maximalRuns (x : List Char) : List (List Char) :=
  (x.splitOn ' ').filter (fun w => !w.isEmpty)

/-- The counters after the first `n` iterations of the loop. -/
def countsAfter (x : List Char) (n : Nat) : Counts :=
  ⟨(x.take n).countP isalpha,
   (if n = 0 then 0 else headWord x) + transitions (x.take (n + 1)),
   (x.take n).countP isTerminator⟩


/-! ## Floating-point arithmetic

Finite binary floating-point values are pairs `m * 2^e`.  Every operation
computes the exact rational result as a quotient of integers and rounds it to
`p` significant bits, ties to even (`p = 24` for `float`, `p = 53` for
`double`).  The exponent is unbounded: the counters are C `int`s, so the
binary32 and binary64 exponent ranges are never left by a finite result. -/

/-- A finite binary floating-point value `m * 2^e`. -/
structure Fl where
  m : Int
  e : Int
deriving DecidableEq, Repr

/-- The rational number a floating-point value stands for. -/
def Fl.toRat (x : Fl) : ℚ := x.m * (2 : ℚ) ^ x.e

/-- Numerator of `m * 2^e` written as a quotient of integers. -/
def Fl.num (x : Fl) : Int := x.m * 2 ^ x.e.toNat

/-- Denominator of `m * 2^e` written as a quotient of integers. -/
def Fl.den (x : Fl) : Nat := 2 ^ (-x.e).toNat

/-- Halving loop for the binary logarithm. -/
def log2Aux : Nat → Nat → Nat
  | 0, _ => 0
  | f + 1, n => if n < 2 then 0 else log2Aux f (n / 2) + 1

/-- Position of the leading bit: `2 ^ ilog2 n ≤ n < 2 ^ (ilog2 n + 1)` for `n > 0`. -/
def ilog2 (n : Nat) : Nat := log2Aux n n

/-- The integer nearest to `num / den`, ties to the even neighbour. -/
def divNearestEven (num den : Nat) : Nat :=
  let q := num / den
  let r := num % den
  if 2 * r < den then q else if den < 2 * r then q + 1 else if q % 2 = 0 then q else q + 1

/-- Binary exponent of the positive quotient `a / d`: the `e` with
`2^e ≤ a / d < 2^(e+1)`. -/
def binExp (a d : Nat) : Int :=
  let e0 : Int := (ilog2 a : Int) - (ilog2 d : Int)
  if a * 2 ^ (-e0).toNat < d * 2 ^ e0.toNat then e0 - 1 else e0

/-- Rounds the quotient `n / d` (`d > 0`) to `p` significant bits, to nearest,
ties to even. -/
def roundTo (p : Nat) (n : Int) (d : Nat) : Fl :=
  if n = 0 then ⟨0, 0⟩
  else
    let a := n.natAbs
    let k := binExp a d - ((p : Int) - 1)
    ⟨n.sign * (divNearestEven (a * 2 ^ (-k).toNat) (d * 2 ^ k.toNat) : Nat), k⟩

/-- Conversion of an `int` to a `p`-bit floating-point value. -/
def ofInt (p : Nat) (n : Int) : Fl := roundTo p n 1

/-- Floating-point product. -/
def fmul (p : Nat) (a b : Fl) : Fl := roundTo p (a.num * b.num) (a.den * b.den)

/-- Floating-point difference. -/
def fsub (p : Nat) (a b : Fl) : Fl :=
  roundTo p (a.num * b.den - b.num * a.den) (a.den * b.den)

/-- Floating-point quotient; `none` stands for the non-finite result (NaN or an
infinity) of a division by zero. -/
def fdiv (p : Nat) (a b : Fl) : Option Fl :=
  if b.m = 0 then none
  else some (roundTo p (a.num * b.den * b.num.sign) (a.den * b.num.natAbs))

/-- The `round` of `<math.h>` followed by the conversion to `int`: nearest
integer, halfway cases away from zero. -/
def cround (x : Fl) : Int :=
  x.num.sign * ((2 * x.num.natAbs + x.den) / (2 * x.den) : Nat)

/-! ## Index, classification, output -/

/-- The statement `float l = (num_letters / (float)num_words) * 100;` (and the
same for `s`): the count is converted to `float`, divided, and multiplied by
`100` in single precision. -/
def perHundred (n w : Nat) : Option Fl := do
  let q ← fdiv 24 (ofInt 24 n) (ofInt 24 w)
  pure (fmul 24 q (ofInt 24 100))

/-- The expression `0.0588 * l - 0.296 * s - 15.8`, evaluated left to right in
double precision with the three decimal constants rounded to `double`. -/
def indexValue (l s : Fl) : Fl :=
  fsub 53 (fsub 53 (fmul 53 (roundTo 53 588 10000) l) (fmul 53 (roundTo 53 296 1000) s))
    (roundTo 53 158 10)

/-- The statement `int index = round(0.0588 * l - 0.296 * s - 15.8);`. -/
def index (c : Counts) : Option Int := do
  let l ← perHundred c.letters c.words
  let s ← perHundred c.sentences c.words
  pure (cround (indexValue l s))

/-- The three `printf` branches of `main`. -/
def printGrade (index : Int) : String :=
  if index < 1 then "Before Grade 1\n"
  else if index ≥ 16 then "Grade 16+\n"
  else "Grade " ++ toString index ++ "\n"

/-- What `main` prints after the text `x` has been read. -/
def main (x : List Char) : Option String := do
  let c ← scan x
  let i ← index c
  pure (printGrade i)

/-- The grade classification of the data model. -/
inductive ReadabilityResult where
  | BeforeGrade1
  | Grade (n : Int)
  | Grade16Plus
deriving DecidableEq, Repr

/-- The branch structure of `main`, with each branch named by the result it
stands for. -/
def classify (index : Int) : ReadabilityResult :=
  if index < 1 then .BeforeGrade1
  else if index ≥ 16 then .Grade16Plus
  else .Grade index

/-- The output line of a classification. -/
def render : ReadabilityResult → String
  | .BeforeGrade1 => "Before Grade 1\n"
  | .Grade16Plus => "Grade 16+\n"
  | .Grade n => "Grade " ++ toString n ++ "\n"

/-- The analysis of a text: scan, index, classification. -/
def analyze (x : List Char) : Option ReadabilityResult := do
  let c ← scan x
  let i ← index c
  pure (classify i)

/-! ## Reference arithmetic on rationals

The rounding operations stated on `ℚ`, against which the integer
implementations above are proved correct. -/

/-- The integer nearest to a rational, ties to the even neighbour. -/
def roundEven (x : ℚ) : ℤ :=
  if Int.fract x < 1 / 2 then ⌊x⌋
  else if 1 / 2 < Int.fract x then ⌊x⌋ + 1
  else if ⌊x⌋ % 2 = 0 then ⌊x⌋ else ⌊x⌋ + 1

/-- A positive rational rounded to `p` significant bits, ties to even. -/
def rndPos (p : ℕ) (x : ℚ) : ℚ :=
  roundEven (x / 2 ^ (Int.log 2 x - ((p : ℤ) - 1))) * 2 ^ (Int.log 2 x - ((p : ℤ) - 1))

/-- A rational rounded to `p` significant bits, to nearest, ties to even. -/
def rnd (p : ℕ) (x : ℚ) : ℚ :=
  if x = 0 then 0 else if 0 < x then rndPos p x else -rndPos p (-x)

/-- The integer nearest to a rational, halfway cases away from zero. -/
def roundHalfAway (x : ℚ) : ℤ :=
  if 0 ≤ x then ⌊x + 1 / 2⌋ else -⌊-x + 1 / 2⌋

/-- The value of `(n / (float)w) * 100` in single precision, on rationals. -/
def perHundredQ (n w : ℕ) : ℚ :=
  rnd 24 (rnd 24 (rnd 24 n / rnd 24 w) * rnd 24 100)

/-- The value of `0.0588 * l - 0.296 * s - 15.8` in double precision, on
rationals. -/
def indexValueQ (l s : ℚ) : ℚ :=
  rnd 53 (rnd 53 (rnd 53 (rnd 53 (588 / 10000) * l) - rnd 53 (rnd 53 (296 / 1000) * s))
    - rnd 53 (158 / 10))

/-- The index as the program's floating-point arithmetic computes it. -/
def floatIndex (l w s : ℕ) : ℤ :=
  roundHalfAway (indexValueQ (perHundredQ l w) (perHundredQ s w))

/-- The value of the specification's formula in exact arithmetic:
`0.0588 * L - 0.296 * S - 15.8` with `L = (letters / words) * 100` and
`S = (sentences / words) * 100`. -/
def exactValue (l w s : ℕ) : ℚ :=
  0.0588 * ((l : ℚ) / w * 100) - 0.296 * ((s : ℚ) / w * 100) - 15.8

/-- The index of the specification: the exact value rounded to the nearest
integer, halfway cases away from zero. -/
def exactIndex (l w s : ℕ) : ℤ :=
  roundHalfAway (exactValue l w s)

/-- A bound on the distance between the floating-point value and the exact
value: `2^-20` times the sum of the magnitudes of the three terms. -/
def errorBound (l w s : ℕ) : ℚ :=
  (0.0588 * ((l : ℚ) / w * 100) + 0.296 * ((s : ℚ) / w * 100) + 15.8) / 2 ^ 20

/-! ## The scan computes the reference counts -/

theorem isalpha_eq_isAsciiLetter (c : Char) : isalpha c = isAsciiLetter c := by
  have h1 : ∀ a b : Char, decide (a ≤ b) = decide (a.toNat ≤ b.toNat) := by
    intro a b
    simp only [Char.le_def, Char.toNat, UInt32.le_def, UInt32.toNat]
    rfl
  unfold isalpha isAsciiLetter
  rw [h1, h1, h1, h1]
  rfl

theorem transitions_append_singleton (l : List Char) (b : Char) :
    transitions (l ++ [b])
      = transitions l + (if l.getLast? = some ' ' ∧ b ≠ ' ' then 1 else 0) := by
  induction l with
  | nil => simp [transitions]
  | cons a t ih =>
    cases t with
    | nil => simp [transitions]
    | cons c u =>
      have : (a :: c :: u) ++ [b] = a :: (c :: u ++ [b]) := rfl
      rw [this]
      cases hu : (c :: u ++ [b]) with
      | nil => simp at hu
      | cons c' u' =>
        have hc : c' = c := by simp at hu; exact hu.1.symm
        subst hc
        rw [transitions, ← hu, ih, transitions]
        simp [List.getLast?_cons_cons, Nat.add_assoc]

theorem take_succ_of_lt (x : List Char) (n : Nat) (h : n < x.length) :
    x.take (n + 1) = x.take n ++ [x[n]] := by
  rw [List.take_succ, List.getElem?_eq_getElem h]; rfl

theorem getLast?_take_succ (x : List Char) (n : Nat) (h : n < x.length) :
    (x.take (n + 1)).getLast? = some x[n] := by
  rw [take_succ_of_lt x n h]; exact List.getLast?_concat _

theorem wordStart_eq (x : List Char) (n : Nat) (h : n < x.length) :
    wordStart x x.length n
      = some (decide (n = 0 ∧ x[n] ≠ ' ') ||
          (if h' : n + 1 < x.length then decide (x[n] = ' ' ∧ x[n + 1] ≠ ' ') else false)) := by
  have hx : x[n]? = some x[n] := List.getElem?_eq_getElem h
  have hb : ∀ a b : Char, (a != b) = !decide (a = b) := by
    intro a b; by_cases hab : a = b <;> simp [hab]
  by_cases h' : n + 1 < x.length
  · have hx' : x[n + 1]? = some x[n + 1] := List.getElem?_eq_getElem h'
    have hne : n ≠ x.length - 1 := by omega
    rcases Nat.eq_zero_or_pos n with h0 | h0
    · subst h0
      by_cases hsp : x[0] = ' ' <;> simp [wordStart, hx, hx', h', hne, hsp, hb]
    · have h0' : n ≠ 0 := by omega
      by_cases hsp : x[n] = ' ' <;> simp [wordStart, hx, hx', h', hne, h0', hsp, hb]
  · have he : x.length - 1 = n := by omega
    rcases Nat.eq_zero_or_pos n with h0 | h0
    · subst h0
      by_cases hsp : x[0] = ' ' <;> simp [wordStart, hx, h', he, hsp, hb]
    · have h0' : n ≠ 0 := by omega
      by_cases hsp : x[n] = ' ' <;> simp [wordStart, hx, h', he, h0', hsp, hb]

theorem headWord_eq (x : List Char) (h : 0 < x.length) :
    headWord x = if x[0] ≠ ' ' then 1 else 0 := by
  cases x with
  | nil => simp at h
  | cons a t => simp [headWord]

theorem words_step (x : List Char) (n : Nat) (h : n < x.length) :
    (if n + 1 = 0 then 0 else headWord x) + transitions (x.take (n + 1 + 1))
      = (if n = 0 then 0 else headWord x) + transitions (x.take (n + 1))
        + (if (decide (n = 0 ∧ x[n] ≠ ' ') ||
          (if h' : n + 1 < x.length then decide (x[n] = ' ' ∧ x[n + 1] ≠ ' ') else false)) = true
          then 1 else 0) := by
  have hT : transitions (x.take (n + 1 + 1)) = transitions (x.take (n + 1))
      + (if h' : n + 1 < x.length then (if x[n] = ' ' ∧ x[n + 1] ≠ ' ' then 1 else 0) else 0) := by
    by_cases h' : n + 1 < x.length
    · rw [take_succ_of_lt x (n + 1) h', transitions_append_singleton, getLast?_take_succ x n h]
      simp [h']
    · rw [List.take_of_length_le (by omega : x.length ≤ n + 1 + 1),
        List.take_of_length_le (by omega : x.length ≤ n + 1)]
      simp [h']
  rw [hT]
  rcases Nat.eq_zero_or_pos n with h0 | h0
  · subst h0
    rw [headWord_eq x h]
    by_cases h' : 0 + 1 < x.length <;> by_cases hsp : x[0] = ' ' <;> simp [h', hsp] <;> omega
  · have h0' : n ≠ 0 := by omega
    by_cases h' : n + 1 < x.length <;> simp [h', h0', Nat.add_assoc]

theorem scanBody_countsAfter (x : List Char) (n : Nat) (h : n < x.length) :
    scanBody x x.length (countsAfter x n) n = some (countsAfter x (n + 1)) := by
  have hx : x[n]? = some x[n] := List.getElem?_eq_getElem h
  have hl : (x.take (n + 1)).countP isalpha
      = (x.take n).countP isalpha + (if isalpha x[n] then 1 else 0) := by
    rw [take_succ_of_lt x n h, List.countP_append]; simp [List.countP_cons]
  have hs : (x.take (n + 1)).countP isTerminator
      = (x.take n).countP isTerminator + (if isTerminator x[n] then 1 else 0) := by
    rw [take_succ_of_lt x n h, List.countP_append]; simp [List.countP_cons]
  simp only [scanBody, hx, wordStart_eq x n h, Option.bind_eq_bind, Option.some_bind,
    Option.pure_def, countsAfter]
  rw [hl, hs, words_step x n h]
  split_ifs <;> rfl

theorem foldlM_range_scanBody (x : List Char) (n : Nat) (h : n ≤ x.length) :
    (List.range n).foldlM (scanBody x x.length) ⟨0, 0, 0⟩ = some (countsAfter x n) := by
  induction n with
  | zero =>
    cases x with
    | nil => simp [countsAfter, transitions]
    | cons a t => simp [countsAfter, transitions]
  | succ k ih =>
    rw [List.range_succ, List.foldlM_append, ih (by omega)]
    simp [scanBody_countsAfter x k (by omega)]

/-- The scan never fails, and its three counters are the reference counts. -/
theorem scan_eq (x : List Char) :
    scan x = some ⟨x.countP isalpha, headWord x + transitions x, x.countP isTerminator⟩ := by
  rw [scan, foldlM_range_scanBody x x.length (Nat.le_refl _)]
  simp only [countsAfter, List.take_length, List.take_of_length_le (Nat.le_succ x.length)]
  cases x with
  | nil => simp [headWord]
  | cons a t => simp

theorem splitOnP_head (p : Char → Bool) (x : List Char) :
    ∃ h rest, x.splitOnP p = h :: rest ∧
      (h.isEmpty = match x with
        | [] => true
        | b :: _ => p b) := by
  cases x with
  | nil => exact ⟨[], [], by simp, rfl⟩
  | cons b t =>
    rw [List.splitOnP_cons]
    by_cases hb : p b = true
    · exact ⟨[], t.splitOnP p, by simp [hb], by simp [hb]⟩
    · cases hs : t.splitOnP p with
      | nil => exact absurd hs (List.splitOnP_ne_nil p t)
      | cons h r => exact ⟨b :: h, r, by simp [hb], by simp [hb]⟩

theorem runs_cons (c : Char) (x : List Char) :
    (maximalRuns (c :: x)).length
      = if c = ' ' then (maximalRuns x).length
        else (maximalRuns x).length + (match x with
          | [] => 1
          | b :: _ => if b = ' ' then 1 else 0) := by
  unfold maximalRuns List.splitOn
  rw [List.splitOnP_cons]
  obtain ⟨h, rest, hs, hh⟩ := splitOnP_head (fun a => a == ' ') x
  rw [hs]
  by_cases hc : c = ' '
  · simp [hc]
  · cases x with
    | nil =>
      simp at hh
      simp [hc, hh]
    | cons b t =>
      by_cases hb : b = ' '
      · simp [hb] at hh
        simp [hc, hb, hh]
      · simp [hb] at hh
        simp [hc, hb, hh]

theorem words_eq_runs (x : List Char) :
    headWord x + transitions x = (maximalRuns x).length := by
  induction x with
  | nil => simp [headWord, transitions, maximalRuns]
  | cons c t ih =>
    rw [runs_cons, ← ih]
    cases t with
    | nil => by_cases hc : c = ' ' <;> simp [headWord, transitions, hc]
    | cons b u =>
      by_cases hc : c = ' ' <;> by_cases hb : b = ' ' <;>
        simp [headWord, transitions, hc, hb]
      all_goals omega

theorem words_eq_zero_iff (x : List Char) :
    headWord x + transitions x = 0 ↔ ∀ c ∈ x, c = ' ' := by
  induction x with
  | nil => simp [headWord, transitions]
  | cons c t ih =>
    cases t with
    | nil => by_cases hc : c = ' ' <;> simp [headWord, transitions, hc]
    | cons b u =>
      by_cases hc : c = ' ' <;> by_cases hb : b = ' ' <;>
        simp [headWord, transitions, hc, hb] at ih ⊢
      exact ih

/-! ## The integer rounding implements the rational reference -/

theorem log2Aux_spec (f : Nat) : ∀ n : Nat, n ≤ f → 0 < n →
    2 ^ log2Aux f n ≤ n ∧ n < 2 ^ (log2Aux f n + 1) := by
  induction f with
  | zero => intro n h1 h2; omega
  | succ f ih =>
    intro n h1 h2
    unfold log2Aux
    by_cases h : n < 2
    · have : n = 1 := by omega
      subst this
      simp
    · simp only [h, if_false]
      have hdiv : n / 2 ≤ f := by omega
      have hpos : 0 < n / 2 := by omega
      obtain ⟨h3, h4⟩ := ih (n / 2) hdiv hpos
      constructor
      · rw [pow_succ]; omega
      · rw [pow_succ]; omega

theorem ilog2_spec (n : Nat) (h : 0 < n) :
    2 ^ ilog2 n ≤ n ∧ n < 2 ^ (ilog2 n + 1) :=
  log2Aux_spec n n (Nat.le_refl n) h

theorem scale_eq (a d : ℕ) (k : ℤ) :
    ((a * 2 ^ (-k).toNat : ℕ) : ℚ) / ((d * 2 ^ k.toNat : ℕ) : ℚ) = (a : ℚ) / d / 2 ^ k := by
  rcases le_or_lt 0 k with hk | hk
  · have h1 : (-k).toNat = 0 := by omega
    obtain ⟨j, rfl⟩ := Int.eq_ofNat_of_zero_le hk
    simp [h1, div_div]
  · have h1 : k.toNat = 0 := by omega
    obtain ⟨j, hj⟩ := Int.eq_ofNat_of_zero_le (by omega : 0 ≤ -k)
    have hk' : k = -(j : ℤ) := by omega
    subst hk'
    simp [h1, zpow_neg]
    ring

theorem scaled_lt_iff (a d : ℕ) (hd : 0 < d) (k : ℤ) :
    a * 2 ^ (-k).toNat < d * 2 ^ k.toNat ↔ (a : ℚ) / d < 2 ^ k := by
  have hden : (0 : ℚ) < ((d * 2 ^ k.toNat : ℕ) : ℚ) := by positivity
  have h2 : (0 : ℚ) < 2 ^ k := by positivity
  rw [← div_lt_one h2, ← scale_eq, div_lt_one hden]
  exact Nat.cast_lt.symm

theorem binExp_spec (a d : ℕ) (ha : 0 < a) (hd : 0 < d) :
    (2 : ℚ) ^ binExp a d ≤ (a : ℚ) / d ∧ (a : ℚ) / d < 2 ^ (binExp a d + 1) := by
  obtain ⟨ha1, ha2⟩ := ilog2_spec a ha
  obtain ⟨hd1, hd2⟩ := ilog2_spec d hd
  have hdq : (0 : ℚ) < d := by exact_mod_cast hd
  have ha1q : (2 : ℚ) ^ (ilog2 a : ℤ) ≤ a := by
    rw [zpow_natCast]; exact_mod_cast ha1
  have ha2q : (a : ℚ) < 2 ^ ((ilog2 a : ℤ) + 1) := by
    have : ((ilog2 a : ℤ) + 1) = ((ilog2 a + 1 : ℕ) : ℤ) := by push_cast; ring
    rw [this, zpow_natCast]; exact_mod_cast ha2
  have hd1q : (2 : ℚ) ^ (ilog2 d : ℤ) ≤ d := by
    rw [zpow_natCast]; exact_mod_cast hd1
  have hd2q : (d : ℚ) < 2 ^ ((ilog2 d : ℤ) + 1) := by
    have : ((ilog2 d : ℤ) + 1) = ((ilog2 d + 1 : ℕ) : ℤ) := by push_cast; ring
    rw [this, zpow_natCast]; exact_mod_cast hd2
  have two : (2 : ℚ) ≠ 0 := by norm_num
  have hlow : (2 : ℚ) ^ ((ilog2 a : ℤ) - (ilog2 d : ℤ) - 1) ≤ (a : ℚ) / d := by
    rw [le_div_iff₀ hdq]
    have e : ((ilog2 a : ℤ) - (ilog2 d : ℤ) - 1) = (ilog2 a : ℤ) - ((ilog2 d : ℤ) + 1) := by ring
    rw [e, zpow_sub₀ two]
    have hp : (0 : ℚ) < 2 ^ ((ilog2 d : ℤ) + 1) := by positivity
    have hp2 : (0 : ℚ) < 2 ^ (ilog2 a : ℤ) := by positivity
    calc (2 : ℚ) ^ (ilog2 a : ℤ) / 2 ^ ((ilog2 d : ℤ) + 1) * d
        ≤ (2 : ℚ) ^ (ilog2 a : ℤ) / 2 ^ ((ilog2 d : ℤ) + 1) * 2 ^ ((ilog2 d : ℤ) + 1) := by
          apply mul_le_mul_of_nonneg_left hd2q.le; positivity
      _ = (2 : ℚ) ^ (ilog2 a : ℤ) := by field_simp
      _ ≤ a := ha1q
  have hhigh : (a : ℚ) / d < 2 ^ ((ilog2 a : ℤ) - (ilog2 d : ℤ) + 1) := by
    rw [div_lt_iff₀ hdq]
    have e : ((ilog2 a : ℤ) - (ilog2 d : ℤ) + 1) = ((ilog2 a : ℤ) + 1) - (ilog2 d : ℤ) := by ring
    rw [e, zpow_sub₀ two]
    have hp : (0 : ℚ) < 2 ^ (ilog2 d : ℤ) := by positivity
    calc (a : ℚ) < 2 ^ ((ilog2 a : ℤ) + 1) := ha2q
      _ = 2 ^ ((ilog2 a : ℤ) + 1) / 2 ^ (ilog2 d : ℤ) * 2 ^ (ilog2 d : ℤ) := by field_simp
      _ ≤ 2 ^ ((ilog2 a : ℤ) + 1) / 2 ^ (ilog2 d : ℤ) * d := by
          apply mul_le_mul_of_nonneg_left hd1q; positivity
  unfold binExp
  simp only
  by_cases hlt : a * 2 ^ (-((ilog2 a : ℤ) - (ilog2 d : ℤ))).toNat
      < d * 2 ^ ((ilog2 a : ℤ) - (ilog2 d : ℤ)).toNat
  · rw [if_pos hlt]
    refine ⟨hlow, ?_⟩
    rw [sub_add_cancel]
    exact (scaled_lt_iff a d hd _).mp hlt
  · rw [if_neg hlt]
    refine ⟨?_, hhigh⟩
    exact not_lt.mp (fun h => hlt ((scaled_lt_iff a d hd _).mpr h))

theorem binExp_eq_log (a d : ℕ) (ha : 0 < a) (hd : 0 < d) :
    binExp a d = Int.log 2 ((a : ℚ) / d) := by
  obtain ⟨h1, h2⟩ := binExp_spec a d ha hd
  have hpos : (0 : ℚ) < (a : ℚ) / d := by positivity
  have h1' : binExp a d ≤ Int.log 2 ((a : ℚ) / d) :=
    (Int.zpow_le_iff_le_log (by norm_num) hpos).mp (by exact_mod_cast h1)
  have h2' : Int.log 2 ((a : ℚ) / d) < binExp a d + 1 :=
    (Int.lt_zpow_iff_log_lt (by norm_num) hpos).mp (by exact_mod_cast h2)
  omega

theorem divNearestEven_eq (num den : ℕ) (hden : 0 < den) :
    (divNearestEven num den : ℤ) = roundEven ((num : ℚ) / den) := by
  have hq : (0 : ℚ) < den := by exact_mod_cast hden
  have hfloor : ⌊(num : ℚ) / den⌋ = ((num / den : ℕ) : ℤ) := by
    have := Rat.floor_intCast_div_natCast (num : ℤ) den
    simpa using this
  have hfract : Int.fract ((num : ℚ) / den) = ((num % den : ℕ) : ℚ) / den := by
    rw [Int.fract, hfloor, Int.cast_natCast, eq_div_iff hq.ne', sub_mul, div_mul_cancel₀ _ hq.ne']
    have hdm : (num : ℚ) = den * (num / den : ℕ) + (num % den : ℕ) := by
      exact_mod_cast (Nat.div_add_mod num den).symm
    linarith
  have c1 : Int.fract ((num : ℚ) / den) < 1 / 2 ↔ 2 * (num % den) < den := by
    rw [hfract, div_lt_iff₀ hq]
    constructor
    · intro h
      have : (2 : ℚ) * ((num % den : ℕ) : ℚ) < den := by linarith
      exact_mod_cast this
    · intro h
      have : (2 : ℚ) * ((num % den : ℕ) : ℚ) < den := by exact_mod_cast h
      linarith
  have c2 : 1 / 2 < Int.fract ((num : ℚ) / den) ↔ den < 2 * (num % den) := by
    rw [hfract, lt_div_iff₀ hq]
    constructor
    · intro h
      have : (den : ℚ) < 2 * ((num % den : ℕ) : ℚ) := by linarith
      exact_mod_cast this
    · intro h
      have : (den : ℚ) < 2 * ((num % den : ℕ) : ℚ) := by exact_mod_cast h
      linarith
  have c3 : ((num / den : ℕ) : ℤ) % 2 = 0 ↔ (num / den) % 2 = 0 := by omega
  unfold divNearestEven roundEven
  simp only [hfloor, c1, c2, c3]
  split_ifs <;> simp

theorem Fl.den_pos (x : Fl) : 0 < x.den := by
  unfold Fl.den; positivity

theorem Fl.toRat_eq (x : Fl) : x.toRat = (x.num : ℚ) / x.den := by
  unfold Fl.toRat Fl.num Fl.den
  rcases le_or_lt 0 x.e with hk | hk
  · have h1 : (-x.e).toNat = 0 := by omega
    obtain ⟨j, hj⟩ := Int.eq_ofNat_of_zero_le hk
    rw [hj]
    simp
  · have h1 : x.e.toNat = 0 := by omega
    obtain ⟨j, hj⟩ := Int.eq_ofNat_of_zero_le (by omega : 0 ≤ -x.e)
    have hk' : x.e = -(j : ℤ) := by omega
    rw [hk']
    simp [zpow_neg]
    rfl

theorem roundTo_aux (p a d : ℕ) (ha : 0 < a) (hd : 0 < d) :
    ((divNearestEven (a * 2 ^ (-(binExp a d - ((p : ℤ) - 1))).toNat)
        (d * 2 ^ (binExp a d - ((p : ℤ) - 1)).toNat) : ℕ) : ℚ)
      * 2 ^ (binExp a d - ((p : ℤ) - 1)) = rndPos p ((a : ℚ) / d) := by
  have hm := divNearestEven_eq (a * 2 ^ (-(binExp a d - ((p : ℤ) - 1))).toNat)
    (d * 2 ^ (binExp a d - ((p : ℤ) - 1)).toNat) (by positivity)
  rw [scale_eq] at hm
  rw [← @Int.cast_natCast ℚ, hm, binExp_eq_log _ _ ha hd, rndPos]

theorem roundTo_toRat (p : ℕ) (n : ℤ) (d : ℕ) (hd : 0 < d) :
    (roundTo p n d).toRat = rnd p ((n : ℚ) / d) := by
  have hdq : (0 : ℚ) < d := by exact_mod_cast hd
  unfold roundTo rnd
  by_cases hn : n = 0
  · simp [hn, Fl.toRat]
  · have ha : 0 < n.natAbs := Int.natAbs_pos.mpr hn
    have hne : (n : ℚ) / d ≠ 0 := by
      have : (n : ℚ) ≠ 0 := by exact_mod_cast hn
      positivity
    rw [if_neg hn, if_neg hne]
    simp only [Fl.toRat]
    have hm := roundTo_aux p n.natAbs d ha hd
    rw [Int.cast_mul, Int.cast_natCast, mul_assoc, hm]
    rcases lt_or_gt_of_ne hn with hneg | hpos
    · have habs : ((n.natAbs : ℕ) : ℚ) = -(n : ℚ) := by
        have h : (n.natAbs : ℤ) = -n := by omega
        rw [← @Int.cast_natCast ℚ, h, Int.cast_neg]
      have hlt : ¬ (0 : ℚ) < (n : ℚ) / d := by
        have : (n : ℚ) < 0 := by exact_mod_cast hneg
        have := div_neg_of_neg_of_pos this hdq
        linarith
      rw [if_neg hlt, Int.sign_eq_neg_one_of_neg hneg, habs, neg_div]
      push_cast
      ring
    · have habs : ((n.natAbs : ℕ) : ℚ) = (n : ℚ) := by
        have h : (n.natAbs : ℤ) = n := by omega
        rw [← @Int.cast_natCast ℚ, h]
      have hlt : (0 : ℚ) < (n : ℚ) / d := by
        have : (0 : ℚ) < (n : ℚ) := by exact_mod_cast hpos
        positivity
      rw [if_pos hlt, Int.sign_eq_one_of_pos hpos, habs]
      push_cast
      ring

theorem ofInt_toRat (p : ℕ) (n : ℤ) : (ofInt p n).toRat = rnd p n := by
  have := roundTo_toRat p n 1 Nat.one_pos
  simpa [ofInt] using this

theorem fmul_toRat (p : ℕ) (a b : Fl) : (fmul p a b).toRat = rnd p (a.toRat * b.toRat) := by
  unfold fmul
  rw [roundTo_toRat p _ _ (Nat.mul_pos a.den_pos b.den_pos), a.toRat_eq, b.toRat_eq]
  push_cast
  rw [div_mul_div_comm]

theorem fsub_toRat (p : ℕ) (a b : Fl) : (fsub p a b).toRat = rnd p (a.toRat - b.toRat) := by
  have ha : (a.den : ℚ) ≠ 0 := by exact_mod_cast a.den_pos.ne'
  have hb : (b.den : ℚ) ≠ 0 := by exact_mod_cast b.den_pos.ne'
  unfold fsub
  rw [roundTo_toRat p _ _ (Nat.mul_pos a.den_pos b.den_pos), a.toRat_eq, b.toRat_eq]
  push_cast
  rw [div_sub_div _ _ ha hb, mul_comm (b.num : ℚ) (a.den : ℚ)]

theorem Fl.toRat_eq_zero_iff (x : Fl) : x.toRat = 0 ↔ x.m = 0 := by
  unfold Fl.toRat
  have h2 : (2 : ℚ) ^ x.e ≠ 0 := by positivity
  constructor
  · intro h
    rcases mul_eq_zero.mp h with h | h
    · exact_mod_cast h
    · exact absurd h h2
  · intro h
    simp [h]

theorem Fl.num_eq_zero_iff (x : Fl) : x.num = 0 ↔ x.m = 0 := by
  unfold Fl.num
  constructor
  · intro h
    rcases mul_eq_zero.mp h with h | h
    · exact h
    · exact absurd h (by positivity)
  · intro h
    simp [h]

theorem fdiv_toRat (p : ℕ) (a b : Fl) (hb : b.m ≠ 0) :
    ∃ r, fdiv p a b = some r ∧ r.toRat = rnd p (a.toRat / b.toRat) := by
  have hnum : b.num ≠ 0 := fun h => hb ((b.num_eq_zero_iff).mp h)
  have hnat : 0 < b.num.natAbs := Int.natAbs_pos.mpr hnum
  refine ⟨_, by rw [fdiv, if_neg hb], ?_⟩
  rw [roundTo_toRat p _ _ (Nat.mul_pos a.den_pos hnat), a.toRat_eq, b.toRat_eq]
  congr 1
  have had : (a.den : ℚ) ≠ 0 := by exact_mod_cast a.den_pos.ne'
  have hbd : (b.den : ℚ) ≠ 0 := by exact_mod_cast b.den_pos.ne'
  have hbn : (b.num : ℚ) ≠ 0 := by exact_mod_cast hnum
  have habs : ((b.num.natAbs : ℕ) : ℚ) = (b.num.sign : ℚ) * b.num := by
    have h : (b.num.natAbs : ℤ) = b.num.sign * b.num := by
      rcases lt_or_gt_of_ne hnum with h | h
      · rw [Int.sign_eq_neg_one_of_neg h]; omega
      · rw [Int.sign_eq_one_of_pos h]; omega
    rw [← @Int.cast_natCast ℚ, h, Int.cast_mul]
  have hsq : (b.num.sign : ℚ) * b.num.sign = 1 := by
    rcases lt_or_gt_of_ne hnum with h | h
    · rw [Int.sign_eq_neg_one_of_neg h]; norm_num
    · rw [Int.sign_eq_one_of_pos h]; norm_num
  have hs : (b.num.sign : ℚ) ≠ 0 := by
    intro h0; rw [h0] at hsq; norm_num at hsq
  push_cast
  rw [habs]
  field_simp
  ring

theorem cround_eq (x : Fl) : cround x = roundHalfAway x.toRat := by
  have hd : (0 : ℚ) < x.den := by exact_mod_cast x.den_pos
  have key : ∀ a : ℕ, (((2 * a + x.den) / (2 * x.den) : ℕ) : ℤ) = ⌊(a : ℚ) / x.den + 1 / 2⌋ := by
    intro a
    have h := Rat.floor_intCast_div_natCast ((2 * a + x.den : ℕ) : ℤ) (2 * x.den)
    have e : (a : ℚ) / x.den + 1 / 2 = (((2 * a + x.den : ℕ) : ℤ) : ℚ) / ((2 * x.den : ℕ) : ℚ) := by
      push_cast
      field_simp
      ring
    rw [e, h]
    norm_cast
  unfold cround roundHalfAway
  rw [x.toRat_eq]
  rcases lt_trichotomy x.num 0 with h | h | h
  · have hq : (x.num : ℚ) < 0 := by exact_mod_cast h
    have hneg : ¬ (0 : ℚ) ≤ (x.num : ℚ) / x.den := by
      have := div_neg_of_neg_of_pos hq hd
      linarith
    have habs : ((x.num.natAbs : ℕ) : ℚ) = -(x.num : ℚ) := by
      have h' : (x.num.natAbs : ℤ) = -x.num := by omega
      rw [← @Int.cast_natCast ℚ, h', Int.cast_neg]
    rw [if_neg hneg, Int.sign_eq_neg_one_of_neg h, key, habs, neg_div]
    ring
  · rw [h]; simp
    symm
    rw [Int.floor_eq_iff]; norm_num
  · have hq : (0 : ℚ) < (x.num : ℚ) := by exact_mod_cast h
    have hpos : (0 : ℚ) ≤ (x.num : ℚ) / x.den := by positivity
    have habs : ((x.num.natAbs : ℕ) : ℚ) = (x.num : ℚ) := by
      have h' : (x.num.natAbs : ℤ) = x.num := by omega
      rw [← @Int.cast_natCast ℚ, h']
    rw [if_pos hpos, Int.sign_eq_one_of_pos h, key, habs]
    ring

/-! ## Properties of the rational rounding operations -/

theorem roundEven_bounds (x : ℚ) : ⌊x⌋ ≤ roundEven x ∧ roundEven x ≤ ⌊x⌋ + 1 := by
  unfold roundEven
  split_ifs <;> constructor <;> omega

theorem roundEven_intCast (z : ℤ) : roundEven (z : ℚ) = z := by
  unfold roundEven
  simp

theorem roundEven_mono {x y : ℚ} (h : x ≤ y) : roundEven x ≤ roundEven y := by
  have hf : ⌊x⌋ ≤ ⌊y⌋ := Int.floor_mono h
  rcases lt_or_eq_of_le hf with hlt | heq
  · have h1 := (roundEven_bounds x).2
    have h2 := (roundEven_bounds y).1
    omega
  · have hfr : Int.fract x ≤ Int.fract y := by
      unfold Int.fract
      rw [heq]
      linarith
    unfold roundEven
    rw [heq]
    split_ifs <;> first | omega | (exfalso; linarith)

theorem roundEven_le_of_le {x : ℚ} {z : ℤ} (h : x ≤ z) : roundEven x ≤ z := by
  have := roundEven_mono h
  rwa [roundEven_intCast] at this

theorem le_roundEven_of_le {x : ℚ} {z : ℤ} (h : (z : ℚ) ≤ x) : z ≤ roundEven x := by
  have := roundEven_mono h
  rwa [roundEven_intCast] at this

theorem rndPos_bounds (p : ℕ) (hp : 0 < p) (x : ℚ) (hx : 0 < x) :
    (2 : ℚ) ^ Int.log 2 x ≤ rndPos p x ∧ rndPos p x ≤ 2 ^ (Int.log 2 x + 1) := by
  have h1 : ((2 : ℕ) : ℚ) ^ Int.log 2 x ≤ x := Int.zpow_log_le_self (by norm_num) hx
  have h2 : x < ((2 : ℕ) : ℚ) ^ (Int.log 2 x + 1) := Int.lt_zpow_succ_log_self (by norm_num) x
  push_cast at h1 h2
  have two : (2 : ℚ) ≠ 0 := by norm_num
  have hu : (0 : ℚ) < 2 ^ (Int.log 2 x - ((p : ℤ) - 1)) := by positivity
  obtain ⟨q, hq⟩ : ∃ q : ℕ, p = q + 1 := ⟨p - 1, by omega⟩
  have e1 : (2 : ℚ) ^ Int.log 2 x
      = ((2 ^ q : ℤ) : ℚ) * 2 ^ (Int.log 2 x - ((p : ℤ) - 1)) := by
    rw [hq]
    push_cast
    rw [← zpow_natCast, ← zpow_add₀ two]
    congr 1
    ring
  have e2 : (2 : ℚ) ^ (Int.log 2 x + 1)
      = ((2 ^ p : ℤ) : ℚ) * 2 ^ (Int.log 2 x - ((p : ℤ) - 1)) := by
    push_cast
    rw [← zpow_natCast, ← zpow_add₀ two]
    congr 1
    ring
  unfold rndPos
  constructor
  · rw [e1]
    apply mul_le_mul_of_nonneg_right _ hu.le
    have : ((2 ^ q : ℤ) : ℚ) ≤ x / 2 ^ (Int.log 2 x - ((p : ℤ) - 1)) := by
      rw [le_div_iff₀ hu, ← e1]; exact h1
    exact_mod_cast le_roundEven_of_le this
  · rw [e2]
    apply mul_le_mul_of_nonneg_right _ hu.le
    have : x / 2 ^ (Int.log 2 x - ((p : ℤ) - 1)) ≤ ((2 ^ p : ℤ) : ℚ) := by
      rw [div_le_iff₀ hu, ← e2]; exact h2.le
    exact_mod_cast roundEven_le_of_le this

theorem rndPos_pos (p : ℕ) (hp : 0 < p) (x : ℚ) (hx : 0 < x) : 0 < rndPos p x :=
  lt_of_lt_of_le (by positivity) (rndPos_bounds p hp x hx).1

theorem rndPos_mono (p : ℕ) (hp : 0 < p) {x y : ℚ} (hx : 0 < x) (h : x ≤ y) :
    rndPos p x ≤ rndPos p y := by
  have hy : 0 < y := lt_of_lt_of_le hx h
  have hlog : Int.log 2 x ≤ Int.log 2 y := Int.log_mono_right hx h
  rcases lt_or_eq_of_le hlog with hlt | heq
  · calc rndPos p x ≤ 2 ^ (Int.log 2 x + 1) := (rndPos_bounds p hp x hx).2
      _ ≤ 2 ^ Int.log 2 y := zpow_le_zpow_right₀ (by norm_num) (by omega)
      _ ≤ rndPos p y := (rndPos_bounds p hp y hy).1
  · unfold rndPos
    rw [heq]
    have hu : (0 : ℚ) < 2 ^ (Int.log 2 y - ((p : ℤ) - 1)) := by positivity
    apply mul_le_mul_of_nonneg_right _ hu.le
    have : x / 2 ^ (Int.log 2 y - ((p : ℤ) - 1)) ≤ y / 2 ^ (Int.log 2 y - ((p : ℤ) - 1)) :=
      div_le_div_of_nonneg_right h hu.le
    exact_mod_cast roundEven_mono this

theorem rnd_zero (p : ℕ) : rnd p 0 = 0 := by simp [rnd]

theorem rnd_of_pos (p : ℕ) {x : ℚ} (hx : 0 < x) : rnd p x = rndPos p x := by
  simp [rnd, hx, hx.ne']

theorem rnd_of_neg (p : ℕ) {x : ℚ} (hx : x < 0) : rnd p x = -rndPos p (-x) := by
  simp [rnd, hx.ne, not_lt.mpr hx.le]

theorem rnd_pos (p : ℕ) (hp : 0 < p) {x : ℚ} (hx : 0 < x) : 0 < rnd p x := by
  rw [rnd_of_pos p hx]; exact rndPos_pos p hp x hx

theorem rnd_neg_of_neg (p : ℕ) (hp : 0 < p) {x : ℚ} (hx : x < 0) : rnd p x < 0 := by
  rw [rnd_of_neg p hx]
  have := rndPos_pos p hp (-x) (by linarith)
  linarith

theorem rnd_mono (p : ℕ) (hp : 0 < p) {x y : ℚ} (h : x ≤ y) : rnd p x ≤ rnd p y := by
  rcases lt_trichotomy x 0 with hx | hx | hx
  · rcases lt_trichotomy y 0 with hy | hy | hy
    · rw [rnd_of_neg p hx, rnd_of_neg p hy]
      have := rndPos_mono p hp (by linarith : 0 < -y) (by linarith : -y ≤ -x)
      linarith
    · rw [hy, rnd_zero]; exact (rnd_neg_of_neg p hp hx).le
    · exact le_trans (rnd_neg_of_neg p hp hx).le (rnd_pos p hp hy).le
  · subst hx
    rcases lt_or_eq_of_le h with hy | hy
    · rw [rnd_zero]; exact (rnd_pos p hp hy).le
    · rw [← hy]
  · have hy : 0 < y := lt_of_lt_of_le hx h
    rw [rnd_of_pos p hx, rnd_of_pos p hy]
    exact rndPos_mono p hp hx h

theorem rnd_eq_zero_iff (p : ℕ) (hp : 0 < p) (x : ℚ) : rnd p x = 0 ↔ x = 0 := by
  constructor
  · intro h
    rcases lt_trichotomy x 0 with hx | hx | hx
    · have := rnd_neg_of_neg p hp hx; linarith
    · exact hx
    · have := rnd_pos p hp hx; linarith
  · intro h; rw [h, rnd_zero]

theorem roundHalfAway_mono {x y : ℚ} (h : x ≤ y) : roundHalfAway x ≤ roundHalfAway y := by
  unfold roundHalfAway
  by_cases hx : 0 ≤ x
  · have hy : 0 ≤ y := le_trans hx h
    rw [if_pos hx, if_pos hy]
    exact Int.floor_mono (by linarith)
  · rw [if_neg hx]
    push_neg at hx
    have h1 : 0 ≤ ⌊-x + 1 / 2⌋ := Int.floor_nonneg.mpr (by linarith)
    by_cases hy : 0 ≤ y
    · rw [if_pos hy]
      have h2 : 0 ≤ ⌊y + 1 / 2⌋ := Int.floor_nonneg.mpr (by linarith)
      omega
    · rw [if_neg hy]
      have : ⌊-y + 1 / 2⌋ ≤ ⌊-x + 1 / 2⌋ := Int.floor_mono (by linarith)
      omega

/-! ## The index -/

theorem ofInt_m_ne_zero (p : ℕ) (hp : 0 < p) (w : ℕ) (hw : 1 ≤ w) : (ofInt p (w : ℤ)).m ≠ 0 := by
  intro h
  have h1 := (Fl.toRat_eq_zero_iff _).mpr h
  rw [ofInt_toRat, rnd_eq_zero_iff p hp] at h1
  have : (w : ℚ) = 0 := by exact_mod_cast h1
  have : w = 0 := by exact_mod_cast this
  omega

theorem perHundred_eq (n w : ℕ) (hw : 1 ≤ w) :
    ∃ r, perHundred n w = some r ∧ r.toRat = perHundredQ n w := by
  obtain ⟨q, hq1, hq2⟩ := fdiv_toRat 24 (ofInt 24 n) (ofInt 24 w) (ofInt_m_ne_zero 24 (by norm_num) w hw)
  refine ⟨fmul 24 q (ofInt 24 100), by simp [perHundred, hq1], ?_⟩
  rw [fmul_toRat, hq2, ofInt_toRat, ofInt_toRat, ofInt_toRat, perHundredQ]
  norm_cast

theorem perHundred_zero (n : ℕ) : perHundred n 0 = none := by
  have h : (ofInt 24 0).m = 0 := by decide
  simp [perHundred, fdiv, h]

theorem indexValue_toRat (l s : Fl) : (indexValue l s).toRat = indexValueQ l.toRat s.toRat := by
  have h1 : (roundTo 53 588 10000).toRat = rnd 53 (588 / 10000) := by
    rw [roundTo_toRat 53 588 10000 (by norm_num)]; norm_num
  have h2 : (roundTo 53 296 1000).toRat = rnd 53 (296 / 1000) := by
    rw [roundTo_toRat 53 296 1000 (by norm_num)]; norm_num
  have h3 : (roundTo 53 158 10).toRat = rnd 53 (158 / 10) := by
    rw [roundTo_toRat 53 158 10 (by norm_num)]; norm_num
  unfold indexValue indexValueQ
  rw [fsub_toRat, fsub_toRat, fmul_toRat, fmul_toRat, h1, h2, h3]

/-- With at least one word the index is defined and is the rounding of the
floating-point value. -/
theorem index_eq (c : Counts) (hw : 1 ≤ c.words) :
    index c = some (floatIndex c.letters c.words c.sentences) := by
  obtain ⟨l, hl1, hl2⟩ := perHundred_eq c.letters c.words hw
  obtain ⟨s, hs1, hs2⟩ := perHundred_eq c.sentences c.words hw
  simp only [index, hl1, hs1, Option.bind_eq_bind, Option.some_bind, Option.pure_def]
  rw [cround_eq, indexValue_toRat, hl2, hs2, floatIndex]

theorem index_zero_words (c : Counts) (hw : c.words = 0) : index c = none := by
  simp [index, hw, perHundred_zero]

/-! ## Monotonicity of the index in the letter count -/

theorem rnd_nonneg (p : ℕ) (hp : 0 < p) {x : ℚ} (hx : 0 ≤ x) : 0 ≤ rnd p x := by
  have := rnd_mono p hp hx
  rwa [rnd_zero] at this

theorem indexValueQ_mono_left {l₁ l₂ : ℚ} (s : ℚ) (h : l₁ ≤ l₂) :
    indexValueQ l₁ s ≤ indexValueQ l₂ s := by
  have hc : 0 ≤ rnd 53 (588 / 10000) := rnd_nonneg 53 (by norm_num) (by norm_num)
  unfold indexValueQ
  apply rnd_mono 53 (by norm_num)
  apply sub_le_sub_right
  apply rnd_mono 53 (by norm_num)
  apply sub_le_sub_right
  apply rnd_mono 53 (by norm_num)
  exact mul_le_mul_of_nonneg_left h hc

theorem perHundredQ_mono_left (l₁ l₂ w : ℕ) (h : l₁ ≤ l₂) :
    perHundredQ l₁ w ≤ perHundredQ l₂ w := by
  have hw : 0 ≤ rnd 24 (w : ℚ) := rnd_nonneg 24 (by norm_num) (by positivity)
  have hc : 0 ≤ rnd 24 (100 : ℚ) := rnd_nonneg 24 (by norm_num) (by norm_num)
  have hl : rnd 24 (l₁ : ℚ) ≤ rnd 24 (l₂ : ℚ) :=
    rnd_mono 24 (by norm_num) (by exact_mod_cast h)
  unfold perHundredQ
  apply rnd_mono 24 (by norm_num)
  apply mul_le_mul_of_nonneg_right _ hc
  apply rnd_mono 24 (by norm_num)
  exact div_le_div_of_nonneg_right hl hw

theorem rndPos_exact (p : ℕ) (x : ℚ) (z : ℤ)
    (h : x / 2 ^ (Int.log 2 x - ((p : ℤ) - 1)) = z) : rndPos p x = x := by
  have hu : (2 : ℚ) ^ (Int.log 2 x - ((p : ℤ) - 1)) ≠ 0 := by positivity
  unfold rndPos
  rw [h, roundEven_intCast, ← h, div_mul_cancel₀ _ hu]

theorem rnd_natCast_exact (n : ℕ) (h : n ≤ 2 ^ 24) : rnd 24 (n : ℚ) = n := by
  rcases Nat.eq_zero_or_pos n with h0 | h0
  · subst h0; simp [rnd_zero]
  have hx : (0 : ℚ) < n := by exact_mod_cast h0
  rw [rnd_of_pos 24 hx]
  have h1 : ((2 : ℕ) : ℚ) ^ Int.log 2 (n : ℚ) ≤ n := Int.zpow_log_le_self (by norm_num) hx
  have hle : Int.log 2 (n : ℚ) ≤ 24 := by
    have : Int.log 2 (n : ℚ) ≤ Int.log 2 (((2 : ℕ) : ℚ) ^ (24 : ℤ)) := by
      apply Int.log_mono_right hx
      have : (n : ℚ) ≤ ((2 ^ 24 : ℕ) : ℚ) := by exact_mod_cast h
      rw [zpow_ofNat]
      exact_mod_cast this
    rwa [Int.log_zpow (by norm_num)] at this
  rcases lt_or_eq_of_le hle with hlt | heq
  · obtain ⟨j, hj⟩ := Int.eq_ofNat_of_zero_le (by omega : 0 ≤ -(Int.log 2 (n : ℚ) - ((24 : ℕ) - 1)))
    apply rndPos_exact 24 _ ((n : ℤ) * 2 ^ j)
    have e : Int.log 2 (n : ℚ) - (((24 : ℕ) : ℤ) - 1) = -(j : ℤ) := by
      push_cast at hj ⊢; omega
    rw [e, zpow_neg, zpow_natCast]
    push_cast
    field_simp
  · have hn : (n : ℚ) = 2 ^ 24 := by
      apply le_antisymm
      · exact_mod_cast h
      · rw [heq, zpow_ofNat] at h1
        exact_mod_cast h1
    apply rndPos_exact 24 _ (2 ^ 23)
    rw [heq, hn]
    norm_num

theorem perHundredQ_exact (n w : ℕ) (hn : n ≤ 2 ^ 24) (hw : w ≤ 2 ^ 24) :
    perHundredQ n w = rnd 24 (rnd 24 ((n : ℚ) / w) * rnd 24 100) := by
  rw [perHundredQ, rnd_natCast_exact n hn, rnd_natCast_exact w hw]

theorem perHundredQ_mono_ratio (l₁ w₁ l₂ w₂ : ℕ) (h1 : l₁ ≤ 2 ^ 24) (h2 : w₁ ≤ 2 ^ 24)
    (h3 : l₂ ≤ 2 ^ 24) (h4 : w₂ ≤ 2 ^ 24) (h : (l₁ : ℚ) / w₁ ≤ (l₂ : ℚ) / w₂) :
    perHundredQ l₁ w₁ ≤ perHundredQ l₂ w₂ := by
  have hc : 0 ≤ rnd 24 (100 : ℚ) := rnd_nonneg 24 (by norm_num) (by norm_num)
  rw [perHundredQ_exact l₁ w₁ h1 h2, perHundredQ_exact l₂ w₂ h3 h4]
  apply rnd_mono 24 (by norm_num)
  apply mul_le_mul_of_nonneg_right _ hc
  exact rnd_mono 24 (by norm_num) h

/-! ## Distance between the floating-point value and the exact value -/

theorem roundEven_err (x : ℚ) : |(roundEven x : ℚ) - x| ≤ 1 / 2 := by
  have h0 : Int.fract x = x - ⌊x⌋ := rfl
  have h1 := Int.fract_nonneg x
  have h2 := Int.fract_lt_one x
  rw [abs_le]
  unfold roundEven
  split_ifs <;> push_cast <;> constructor <;> linarith

theorem rndPos_err (p : ℕ) (x : ℚ) (hx : 0 < x) : |rndPos p x - x| ≤ x / 2 ^ p := by
  have h1 : ((2 : ℕ) : ℚ) ^ Int.log 2 x ≤ x := Int.zpow_log_le_self (by norm_num) hx
  push_cast at h1
  have two : (2 : ℚ) ≠ 0 := by norm_num
  have hu : (0 : ℚ) < 2 ^ (Int.log 2 x - ((p : ℤ) - 1)) := by positivity
  have hp : (0 : ℚ) < 2 ^ p := by positivity
  have e : (2 : ℚ) ^ (Int.log 2 x - ((p : ℤ) - 1)) = 2 * (2 ^ Int.log 2 x / 2 ^ p) := by
    rw [← zpow_natCast, ← zpow_sub₀ two, ← zpow_one_add₀ two]
    congr 1
    ring
  have hr := roundEven_err (x / 2 ^ (Int.log 2 x - ((p : ℤ) - 1)))
  have hx' : rndPos p x - x
      = ((roundEven (x / 2 ^ (Int.log 2 x - ((p : ℤ) - 1))) : ℚ)
          - x / 2 ^ (Int.log 2 x - ((p : ℤ) - 1))) * 2 ^ (Int.log 2 x - ((p : ℤ) - 1)) := by
    unfold rndPos
    field_simp
  rw [hx', abs_mul, abs_of_pos hu]
  calc |(roundEven (x / 2 ^ (Int.log 2 x - ((p : ℤ) - 1))) : ℚ)
          - x / 2 ^ (Int.log 2 x - ((p : ℤ) - 1))| * 2 ^ (Int.log 2 x - ((p : ℤ) - 1))
      ≤ 1 / 2 * 2 ^ (Int.log 2 x - ((p : ℤ) - 1)) := mul_le_mul_of_nonneg_right hr hu.le
    _ = 2 ^ Int.log 2 x / 2 ^ p := by rw [e]; ring
    _ ≤ x / 2 ^ p := div_le_div_of_nonneg_right h1 hp.le

theorem rnd_err (p : ℕ) (x : ℚ) : |rnd p x - x| ≤ |x| / 2 ^ p := by
  rcases lt_trichotomy x 0 with hx | hx | hx
  · rw [rnd_of_neg p hx, abs_of_neg hx]
    have := rndPos_err p (-x) (by linarith)
    have e : -rndPos p (-x) - x = -(rndPos p (-x) - -x) := by ring
    rw [e, abs_neg]
    exact this
  · subst hx; simp [rnd_zero]
  · rw [rnd_of_pos p hx, abs_of_pos hx]
    exact rndPos_err p x hx

/-- Rounding a value that is within relative error `a` of `X` keeps it within
relative error `b`, for `b ≥ a + (1 + a) / 2^p`. -/
theorem rel_rnd (p : ℕ) {X Y a b : ℚ} (hX : 0 ≤ X) (h : |Y - X| ≤ a * X)
    (hb : a + (1 + a) / 2 ^ p ≤ b) : |rnd p Y - X| ≤ b * X := by
  have hp : (0 : ℚ) < 2 ^ p := by positivity
  have hY : |Y| ≤ X + a * X := by
    have := abs_sub_abs_le_abs_sub Y X
    rw [abs_of_nonneg hX] at this
    linarith
  have h1 : |rnd p Y - Y| ≤ (X + a * X) / 2 ^ p :=
    le_trans (rnd_err p Y) (div_le_div_of_nonneg_right hY hp.le)
  have h2 : |rnd p Y - X| ≤ |rnd p Y - Y| + |Y - X| := abs_sub_le _ _ _
  have h3 : (X + a * X) / 2 ^ p + a * X = (a + (1 + a) / 2 ^ p) * X := by ring
  have h4 : (a + (1 + a) / 2 ^ p) * X ≤ b * X := mul_le_mul_of_nonneg_right hb hX
  linarith

/-- Relative error of a quotient of two approximations. -/
theorem rel_div {N W N' W' a b c : ℚ} (hN : 0 ≤ N) (hW : 0 < W) (ha : 0 ≤ a) (hb0 : 0 ≤ b)
    (hb1 : b < 1) (h1 : |N' - N| ≤ a * N) (h2 : |W' - W| ≤ b * W)
    (hc : (a + b) / (1 - b) ≤ c) : |N' / W' - N / W| ≤ c * (N / W) := by
  have hW' : (1 - b) * W ≤ W' := by
    have := (abs_le.mp h2).1
    linarith
  have hW'pos : 0 < W' := lt_of_lt_of_le (mul_pos (by linarith) hW) hW'
  have hNW : 0 ≤ N / W := div_nonneg hN hW.le
  have e : N' / W' - N / W = ((N' - N) * W - N * (W' - W)) / (W' * W) := by
    field_simp
    ring
  have hnum : |(N' - N) * W - N * (W' - W)| ≤ (a + b) * N * W := by
    have t1 : |(N' - N) * W| ≤ a * N * W := by
      rw [abs_mul, abs_of_pos hW]
      exact mul_le_mul_of_nonneg_right h1 hW.le
    have t2 : |N * (W' - W)| ≤ N * (b * W) := by
      rw [abs_mul, abs_of_nonneg hN]
      exact mul_le_mul_of_nonneg_left h2 hN
    have := abs_sub ((N' - N) * W) (N * (W' - W))
    linarith
  rw [e, abs_div, abs_of_pos (mul_pos hW'pos hW)]
  have h1b : 0 < 1 - b := by linarith
  calc |(N' - N) * W - N * (W' - W)| / (W' * W)
      ≤ (a + b) * N * W / (W' * W) :=
        div_le_div_of_nonneg_right hnum (mul_pos hW'pos hW).le
    _ = (a + b) * N / W' := by field_simp; ring
    _ ≤ (a + b) * N / ((1 - b) * W) :=
        div_le_div_of_nonneg_left (by positivity) (mul_pos h1b hW) hW'
    _ = (a + b) / (1 - b) * (N / W) := by field_simp
    _ ≤ c * (N / W) := mul_le_mul_of_nonneg_right hc hNW

/-- Relative error of a product of two approximations. -/
theorem rel_mul {C L C' L' a b c : ℚ} (hC : 0 ≤ C) (hL : 0 ≤ L) (ha : 0 ≤ a)
    (h1 : |C' - C| ≤ a * C) (h2 : |L' - L| ≤ b * L) (hc : a + b + a * b ≤ c) :
    |C' * L' - C * L| ≤ c * (C * L) := by
  have e : C' * L' - C * L = (C' - C) * L' + C * (L' - L) := by ring
  have hL' : |L'| ≤ L + b * L := by
    have := abs_sub_abs_le_abs_sub L' L
    rw [abs_of_nonneg hL] at this
    linarith
  have t1 : |(C' - C) * L'| ≤ a * C * (L + b * L) := by
    rw [abs_mul]
    exact mul_le_mul h1 hL' (abs_nonneg _) (mul_nonneg ha hC)
  have t2 : |C * (L' - L)| ≤ C * (b * L) := by
    rw [abs_mul, abs_of_nonneg hC]
    exact mul_le_mul_of_nonneg_left h2 hC
  have t3 := abs_add ((C' - C) * L') (C * (L' - L))
  have t4 : a * C * (L + b * L) + C * (b * L) = (a + b + a * b) * (C * L) := by ring
  have t5 : (a + b + a * b) * (C * L) ≤ c * (C * L) :=
    mul_le_mul_of_nonneg_right hc (mul_nonneg hC hL)
  rw [e]
  linarith

theorem abs_rnd_sub_le (p : ℕ) {X Y M d : ℚ} (h : |Y - X| ≤ d) (hM : |Y| ≤ M) :
    |rnd p Y - X| ≤ d + M / 2 ^ p := by
  have hp : (0 : ℚ) < 2 ^ p := by positivity
  have h1 : |rnd p Y - Y| ≤ M / 2 ^ p :=
    le_trans (rnd_err p Y) (div_le_div_of_nonneg_right hM hp.le)
  have h2 : |rnd p Y - X| ≤ |rnd p Y - Y| + |Y - X| := abs_sub_le _ _ _
  linarith

theorem rnd_natCast_err (n : ℕ) : |rnd 24 (n : ℚ) - n| ≤ 1 / 2 ^ 24 * n := by
  have h := rnd_err 24 (n : ℚ)
  rw [abs_of_nonneg (by positivity : (0 : ℚ) ≤ n)] at h
  calc |rnd 24 (n : ℚ) - n| ≤ (n : ℚ) / 2 ^ 24 := h
    _ = 1 / 2 ^ 24 * n := by ring

theorem rnd_const_err (p : ℕ) (c : ℚ) (hc : 0 ≤ c) : |rnd p c - c| ≤ 1 / 2 ^ p * c := by
  have h := rnd_err p c
  rw [abs_of_nonneg hc] at h
  calc |rnd p c - c| ≤ c / 2 ^ p := h
    _ = 1 / 2 ^ p * c := by ring

theorem perHundredQ_err (n w : ℕ) (hw : 1 ≤ w) :
    |perHundredQ n w - (n : ℚ) / w * 100| ≤ 7 / 2 ^ 24 * ((n : ℚ) / w * 100) := by
  have hn0 : (0 : ℚ) ≤ n := by positivity
  have hw0 : (0 : ℚ) < w := by exact_mod_cast hw
  have hq0 : (0 : ℚ) ≤ (n : ℚ) / w := by positivity
  have h100 : rnd 24 (100 : ℚ) = 100 := by
    have := rnd_natCast_exact 100 (by norm_num)
    simpa using this
  have hd : |rnd 24 (n : ℚ) / rnd 24 (w : ℚ) - (n : ℚ) / w| ≤ 3 / 2 ^ 24 * ((n : ℚ) / w) :=
    rel_div hn0 hw0 (by norm_num) (by norm_num) (by norm_num) (rnd_natCast_err n)
      (rnd_natCast_err w) (by norm_num)
  have hq : |rnd 24 (rnd 24 (n : ℚ) / rnd 24 (w : ℚ)) - (n : ℚ) / w|
      ≤ 5 / 2 ^ 24 * ((n : ℚ) / w) := rel_rnd 24 hq0 hd (by norm_num)
  have hm : |rnd 24 (rnd 24 (n : ℚ) / rnd 24 (w : ℚ)) * 100 - (n : ℚ) / w * 100|
      ≤ 5 / 2 ^ 24 * ((n : ℚ) / w * 100) := by
    rw [← sub_mul, abs_mul, abs_of_pos (by norm_num : (0 : ℚ) < 100)]
    calc |rnd 24 (rnd 24 (n : ℚ) / rnd 24 (w : ℚ)) - (n : ℚ) / w| * 100
        ≤ 5 / 2 ^ 24 * ((n : ℚ) / w) * 100 := mul_le_mul_of_nonneg_right hq (by norm_num)
      _ = 5 / 2 ^ 24 * ((n : ℚ) / w * 100) := by ring
  unfold perHundredQ
  rw [h100]
  exact rel_rnd 24 (by positivity) hm (by norm_num)

theorem indexValueQ_err {L S L' S' : ℚ} (hL : 0 ≤ L) (hS : 0 ≤ S)
    (h1 : |L' - L| ≤ 7 / 2 ^ 24 * L) (h2 : |S' - S| ≤ 7 / 2 ^ 24 * S) :
    |indexValueQ L' S' - (0.0588 * L - 0.296 * S - 15.8)|
      ≤ (0.0588 * L + 0.296 * S + 15.8) / 2 ^ 20 := by
  have hA : (0 : ℚ) ≤ 588 / 10000 * L := by positivity
  have hB : (0 : ℚ) ≤ 296 / 1000 * S := by positivity
  have p1 : |rnd 53 (588 / 10000) * L' - 588 / 10000 * L| ≤ 8 / 2 ^ 24 * (588 / 10000 * L) :=
    rel_mul (by norm_num) hL (by norm_num) (rnd_const_err 53 _ (by norm_num)) h1 (by norm_num)
  have t1 : |rnd 53 (rnd 53 (588 / 10000) * L') - 588 / 10000 * L|
      ≤ 9 / 2 ^ 24 * (588 / 10000 * L) := rel_rnd 53 hA p1 (by norm_num)
  have p2 : |rnd 53 (296 / 1000) * S' - 296 / 1000 * S| ≤ 8 / 2 ^ 24 * (296 / 1000 * S) :=
    rel_mul (by norm_num) hS (by norm_num) (rnd_const_err 53 _ (by norm_num)) h2 (by norm_num)
  have t2 : |rnd 53 (rnd 53 (296 / 1000) * S') - 296 / 1000 * S|
      ≤ 9 / 2 ^ 24 * (296 / 1000 * S) := rel_rnd 53 hB p2 (by norm_num)
  have c3 : |rnd 53 (158 / 10 : ℚ) - 158 / 10| ≤ 1 / 2 ^ 53 * (158 / 10) :=
    rnd_const_err 53 _ (by norm_num)
  unfold indexValueQ
  rw [show (0.0588 : ℚ) = 588 / 10000 by norm_num, show (0.296 : ℚ) = 296 / 1000 by norm_num,
    show (15.8 : ℚ) = 158 / 10 by norm_num]
  generalize rnd 53 (rnd 53 (588 / 10000) * L') = T1 at t1 ⊢
  generalize rnd 53 (rnd 53 (296 / 1000) * S') = T2 at t2 ⊢
  generalize rnd 53 (158 / 10 : ℚ) = C3 at c3 ⊢
  generalize 588 / 10000 * L = A at hA t1 ⊢
  generalize 296 / 1000 * S = B at hB t2 ⊢
  have hT1 := abs_le.mp t1
  have hT2 := abs_le.mp t2
  have hC3 := abs_le.mp c3
  have d1 : |T1 - T2 - (A - B)| ≤ 9 / 2 ^ 24 * (A + B) := by
    rw [abs_le]; constructor <;> linarith [hT1.1, hT1.2, hT2.1, hT2.2]
  have d2 : |T1 - T2| ≤ (1 + 9 / 2 ^ 24) * (A + B) := by
    rw [abs_le]; constructor <;> linarith [hT1.1, hT1.2, hT2.1, hT2.2]
  have d := abs_rnd_sub_le 53 d1 d2
  generalize rnd 53 (T1 - T2) = D at d ⊢
  have hD := abs_le.mp d
  have v1 : |D - C3 - (A - B - 158 / 10)|
      ≤ 9 / 2 ^ 24 * (A + B) + (1 + 9 / 2 ^ 24) * (A + B) / 2 ^ 53 + 1 / 2 ^ 53 * (158 / 10) := by
    rw [abs_le]; constructor <;> linarith [hD.1, hD.2, hC3.1, hC3.2]
  have v2 : |D - C3| ≤ 2 * (A + B) + 2 * (158 / 10) := by
    rw [abs_le]; constructor <;> norm_num at hD hC3 ⊢ <;> linarith [hD.1, hD.2, hC3.1, hC3.2]
  refine le_trans (abs_rnd_sub_le 53 v1 v2) ?_
  norm_num
  linarith

theorem roundHalfAway_eq_floor {x : ℚ} (h : ∀ k : ℤ, x ≠ k + 1 / 2) :
    roundHalfAway x = ⌊x + 1 / 2⌋ := by
  unfold roundHalfAway
  split_ifs with hx
  · rfl
  · symm
    rw [Int.floor_eq_iff]
    have h1 := Int.floor_le (-x + 1 / 2)
    have h2 := Int.lt_floor_add_one (-x + 1 / 2)
    have h3 : (⌊-x + 1 / 2⌋ : ℚ) ≠ -x + 1 / 2 := by
      intro he
      apply h (-⌊-x + 1 / 2⌋)
      push_cast
      linarith
    have h4 : (⌊-x + 1 / 2⌋ : ℚ) < -x + 1 / 2 := lt_of_le_of_ne h1 h3
    push_cast
    constructor <;> linarith

/-- Two values closer to each other than the second is to every half-integer
round to the same integer. -/
theorem roundHalfAway_eq_of_close {v E d : ℚ} (h : |v - E| ≤ d)
    (hE : ∀ k : ℤ, d < |E - (k + 1 / 2)|) : roundHalfAway v = roundHalfAway E := by
  have hv := abs_le.mp h
  have hEk : ∀ k : ℤ, E ≠ k + 1 / 2 := by
    intro k he
    have := hE k
    rw [he, sub_self, abs_zero] at this
    have := abs_nonneg (v - E)
    linarith
  have m1 := Int.floor_le (E + 1 / 2)
  have m2 := Int.lt_floor_add_one (E + 1 / 2)
  have b1 : (⌊E + 1 / 2⌋ : ℚ) - 1 / 2 + d < E := by
    have := hE (⌊E + 1 / 2⌋ - 1)
    push_cast at this
    rw [abs_of_nonneg (by linarith)] at this
    linarith
  have b2 : E < (⌊E + 1 / 2⌋ : ℚ) + 1 / 2 - d := by
    have := hE ⌊E + 1 / 2⌋
    rw [abs_of_neg (by linarith)] at this
    linarith
  have hvk : ∀ k : ℤ, v ≠ k + 1 / 2 := by
    intro k he
    have c1 : ((⌊E + 1 / 2⌋ : ℤ) : ℚ) - 1 < k := by linarith [hv.1, hv.2]
    have c2 : (k : ℚ) < ⌊E + 1 / 2⌋ := by linarith [hv.1, hv.2]
    have c1' : ⌊E + 1 / 2⌋ - 1 < k := by exact_mod_cast c1
    have c2' : k < ⌊E + 1 / 2⌋ := by exact_mod_cast c2
    omega
  rw [roundHalfAway_eq_floor hvk, roundHalfAway_eq_floor hEk, Int.floor_eq_iff]
  constructor <;> linarith [hv.1, hv.2]

theorem floatValue_err (l w s : ℕ) (hw : 1 ≤ w) :
    |indexValueQ (perHundredQ l w) (perHundredQ s w) - exactValue l w s| ≤ errorBound l w s := by
  have hw0 : (0 : ℚ) < w := by exact_mod_cast hw
  unfold exactValue errorBound
  exact indexValueQ_err (by positivity) (by positivity) (perHundredQ_err l w hw)
    (perHundredQ_err s w hw)

/-! ## Further properties of the counts -/

theorem words_cons (c : Char) (x : List Char) :
    headWord (c :: x) + transitions (c :: x)
      = if c = ' ' then headWord x + transitions x
        else headWord x + transitions x + (match x with
          | [] => 1
          | b :: _ => if b = ' ' then 1 else 0) := by
  rw [words_eq_runs, words_eq_runs, runs_cons]

theorem words_append_space (x : List Char) :
    headWord (x ++ [' ']) + transitions (x ++ [' ']) = headWord x + transitions x := by
  rw [transitions_append_singleton]
  cases x with
  | nil => simp [headWord]
  | cons a t => simp [headWord]

theorem words_join (a b : List Char) :
    headWord (a ++ ' ' :: b) + transitions (a ++ ' ' :: b)
      = (headWord a + transitions a) + (headWord b + transitions b) := by
  induction a with
  | nil =>
    rw [List.nil_append, words_cons]
    simp [headWord, transitions]
  | cons c t ih =>
    rw [List.cons_append, words_cons, words_cons, ih]
    cases t with
    | nil =>
      by_cases hc : c = ' ' <;> simp [hc, headWord, transitions]
      omega
    | cons d u =>
      by_cases hc : c = ' ' <;> simp [hc]
      omega

theorem words_pad (a b : ℕ) (t : List Char) :
    headWord (List.replicate a ' ' ++ t ++ List.replicate b ' ')
        + transitions (List.replicate a ' ' ++ t ++ List.replicate b ' ')
      = headWord t + transitions t := by
  induction b with
  | zero =>
    rw [List.replicate_zero, List.append_nil]
    induction a with
    | zero => rfl
    | succ n ih =>
      rw [List.replicate_succ, List.cons_append, words_cons, if_pos rfl, ih]
  | succ n ih =>
    rw [List.replicate_succ', ← List.append_assoc, words_append_space, ih]

theorem countP_pad (p : Char → Bool) (hp : p ' ' = false) (a b : ℕ) (t : List Char) :
    (List.replicate a ' ' ++ t ++ List.replicate b ' ').countP p = t.countP p := by
  have h : ∀ n, (List.replicate n ' ').countP p = 0 := by
    intro n
    rw [List.countP_eq_zero]
    intro c hc
    rw [List.eq_of_mem_replicate hc, hp]
    simp
  rw [List.countP_append, List.countP_append, h, h]
  omega

theorem scan_pad (a b : ℕ) (t : List Char) :
    scan (List.replicate a ' ' ++ t ++ List.replicate b ' ') = scan t := by
  rw [scan_eq, scan_eq, words_pad, countP_pad isalpha (by decide),
    countP_pad isTerminator (by decide)]

theorem transitions_eq_zero (x : List Char) (h : ∀ c ∈ x, c ≠ ' ') : transitions x = 0 := by
  induction x with
  | nil => rfl
  | cons a t ih =>
    cases t with
    | nil => rfl
    | cons b u =>
      have ha : a ≠ ' ' := h a (by simp)
      rw [transitions, ih (fun c hc => h c (List.mem_cons_of_mem _ hc))]
      simp [ha]

theorem analyze_congr (x y : List Char) (h : scan x = scan y) :
    analyze x = analyze y ∧ main x = main y := by
  unfold analyze main
  rw [h]
  exact ⟨rfl, rfl⟩

/-! ## Bounds on the index -/

theorem indexValueQ_anti_right (l : ℚ) {s₁ s₂ : ℚ} (h : s₁ ≤ s₂) :
    indexValueQ l s₂ ≤ indexValueQ l s₁ := by
  have hc : 0 ≤ rnd 53 (296 / 1000) := rnd_nonneg 53 (by norm_num) (by norm_num)
  unfold indexValueQ
  apply rnd_mono 53 (by norm_num)
  apply sub_le_sub_right
  apply rnd_mono 53 (by norm_num)
  apply sub_le_sub_left
  apply rnd_mono 53 (by norm_num)
  exact mul_le_mul_of_nonneg_left h hc

theorem perHundredQ_zero_left (w : ℕ) : perHundredQ 0 w = 0 := by
  simp [perHundredQ, rnd_zero]

theorem perHundredQ_nonneg (n w : ℕ) : 0 ≤ perHundredQ n w := by
  have := perHundredQ_mono_left 0 n w (Nat.zero_le n)
  rwa [perHundredQ_zero_left] at this

set_option maxRecDepth 100000 in
theorem floatIndex_6_1_0 : floatIndex 6 1 0 = 19 := by
  have h1 := index_eq ⟨6, 1, 0⟩ (by decide)
  have h2 : index ⟨6, 1, 0⟩ = some 19 := by decide
  rw [h2] at h1
  exact (Option.some.inj h1).symm

set_option maxRecDepth 100000 in
theorem floatIndex_0_1_0 : floatIndex 0 1 0 = -16 := by
  have h1 := index_eq ⟨0, 1, 0⟩ (by decide)
  have h2 : index ⟨0, 1, 0⟩ = some (-16) := by decide
  rw [h2] at h1
  exact (Option.some.inj h1).symm

theorem floatIndex_ge_19 (l : ℕ) (h : 6 ≤ l) : 19 ≤ floatIndex l 1 0 := by
  rw [← floatIndex_6_1_0]
  unfold floatIndex
  apply roundHalfAway_mono
  apply indexValueQ_mono_left
  exact perHundredQ_mono_left 6 l 1 h

theorem floatIndex_no_letters (w s : ℕ) : floatIndex 0 w s ≤ -16 := by
  rw [← floatIndex_0_1_0]
  unfold floatIndex
  rw [perHundredQ_zero_left, perHundredQ_zero_left]
  apply roundHalfAway_mono
  apply indexValueQ_anti_right
  exact perHundredQ_nonneg s w

/-! ## Claims about the three counts -/

/-- Claim C2: the word count of the index-based lookahead scan equals the
number of maximal runs of non-space characters of the text, for every text;
the text `"Hi   there."` with three spaces yields 2 words and 1 sentence. -/
theorem wordCount_eq_maximalRuns (x : List Char) :
    (scan x).map Counts.words = some (maximalRuns x).length ∧
      (scan "Hi   there.".toList).map (fun c => (c.words, c.sentences)) = some (2, 1) := by
  refine ⟨?_, by decide⟩
  rw [scan_eq, Option.map_some', words_eq_runs]

/-- Claim C3: the scan returns counters whose word count is zero exactly when
the text is empty or made of spaces only, and is at least one exactly when the
text has a non-space character. -/
theorem wordCount_eq_zero_iff (x : List Char) :
    ∃ c, scan x = some c ∧ (c.words = 0 ↔ ∀ ch ∈ x, ch = ' ') ∧
      (1 ≤ c.words ↔ ∃ ch ∈ x, ch ≠ ' ') := by
  refine ⟨_, scan_eq x, words_eq_zero_iff x, ?_⟩
  have h := words_eq_zero_iff x
  show 1 ≤ headWord x + transitions x ↔ _
  constructor
  · intro h1
    by_contra hne
    push_neg at hne
    have := h.mpr hne
    omega
  · rintro ⟨ch, hch, hne⟩
    by_contra h1
    exact hne (h.mp (by omega) ch hch)

/-- Claim C5: the letter count of the scan is the number of positions of the
text that hold an ASCII letter (code 65-90 or 97-122); no other character is
counted. -/
theorem letterCount_eq_countP (x : List Char) :
    (scan x).map Counts.letters = some (x.countP isAsciiLetter) := by
  rw [scan_eq, Option.map_some']
  have h : isalpha = isAsciiLetter := funext isalpha_eq_isAsciiLetter
  rw [h]

/-- Claim C6: the sentence count of the scan is the number of positions of the
text that hold `.`, `?` or `!`, each occurrence counted on its own; the text
`"Wait... really?!"` has sentence count 5. -/
theorem sentenceCount_eq_countP (x : List Char) :
    (scan x).map Counts.sentences
        = some (x.countP (fun c => decide (c = '.' ∨ c = '?' ∨ c = '!'))) ∧
      (scan "Wait... really?!".toList).map Counts.sentences = some 5 := by
  refine ⟨?_, by decide⟩
  rw [scan_eq, Option.map_some']
  have h : isTerminator = fun c => decide (c = '.' ∨ c = '?' ∨ c = '!') := by
    funext c
    by_cases h1 : c = '.' <;> by_cases h2 : c = '?' <;> by_cases h3 : c = '!' <;>
      simp [isTerminator, h1, h2, h3]
  rw [h]

/-! ## Claims about classification and output -/

theorem classify_cases (i : ℤ) :
    (classify i = .BeforeGrade1 ↔ i < 1) ∧ (classify i = .Grade16Plus ↔ 16 ≤ i) ∧
      (∀ n, classify i = .Grade n ↔ n = i ∧ 1 ≤ i ∧ i ≤ 15) := by
  unfold classify
  refine ⟨?_, ?_, ?_⟩
  · split_ifs <;> simp <;> omega
  · split_ifs <;> simp <;> omega
  · intro n
    split_ifs <;> simp <;> omega

theorem printGrade_eq_render (i : ℤ) : printGrade i = render (classify i) := by
  unfold printGrade classify
  split_ifs <;> rfl

theorem scan_words_pos (x : List Char) (h : ∃ ch ∈ x, ch ≠ ' ') :
    ∃ c, scan x = some c ∧ 1 ≤ c.words := by
  refine ⟨_, scan_eq x, ?_⟩
  show 1 ≤ headWord x + transitions x
  by_contra h1
  obtain ⟨ch, hch, hne⟩ := h
  exact hne ((words_eq_zero_iff x).mp (by omega) ch hch)

theorem analyze_eq (x : List Char) (c : Counts) (i : ℤ) (hs : scan x = some c)
    (hi : index c = some i) : analyze x = some (classify i) ∧ main x = some (printGrade i) := by
  simp [analyze, main, hs, hi]

/-- Claim C1: for every text with a non-space character the scan returns
counters with at least one word, the index is defined, and the analysis returns
the classification of that index: `BeforeGrade1` exactly when the index is
below 1, `Grade16Plus` exactly when it is at least 16, and `Grade n` exactly
when `n` is the index and `1 ≤ n ≤ 15`; the result is one of these three. -/
theorem analyze_total (x : List Char) (h : ∃ ch ∈ x, ch ≠ ' ') :
    ∃ c i, scan x = some c ∧ 1 ≤ c.words ∧ index c = some i ∧
      analyze x = some (classify i) ∧
      (classify i = .BeforeGrade1 ∨ classify i = .Grade16Plus ∨
        ∃ n, 1 ≤ n ∧ n ≤ 15 ∧ classify i = .Grade n) ∧
      (classify i = .BeforeGrade1 ↔ i < 1) ∧
      (classify i = .Grade16Plus ↔ 16 ≤ i) ∧
      (∀ n, classify i = .Grade n ↔ n = i ∧ 1 ≤ i ∧ i ≤ 15) := by
  obtain ⟨c, hs, hw⟩ := scan_words_pos x h
  have hi := index_eq c hw
  obtain ⟨h1, h2, h3⟩ := classify_cases (floatIndex c.letters c.words c.sentences)
  refine ⟨c, _, hs, hw, hi, (analyze_eq x c _ hs hi).1, ?_, h1, h2, h3⟩
  generalize floatIndex c.letters c.words c.sentences = i at h1 h2 h3
  rcases lt_or_le i 1 with hlt | hge
  · exact Or.inl (h1.mpr hlt)
  · rcases le_or_lt 16 i with h16 | h16
    · exact Or.inr (Or.inl (h2.mpr h16))
    · exact Or.inr (Or.inr ⟨i, hge, by omega, (h3 i).mpr ⟨rfl, hge, by omega⟩⟩)

/-- Witness for claim C1: the text `"Hi"`. -/
theorem analyze_total_witness :
    (∃ ch ∈ "Hi".toList, ch ≠ ' ') ∧
    ∃ c i, scan "Hi".toList = some c ∧ 1 ≤ c.words ∧ index c = some i ∧
      analyze "Hi".toList = some (classify i) ∧
      (classify i = .BeforeGrade1 ∨ classify i = .Grade16Plus ∨
        ∃ n, 1 ≤ n ∧ n ≤ 15 ∧ classify i = .Grade n) ∧
      (classify i = .BeforeGrade1 ↔ i < 1) ∧
      (classify i = .Grade16Plus ↔ 16 ≤ i) ∧
      (∀ n, classify i = .Grade n ↔ n = i ∧ 1 ≤ i ∧ i ≤ 15) :=
  ⟨⟨'H', by decide, by decide⟩, analyze_total "Hi".toList ⟨'H', by decide, by decide⟩⟩

/-- Claim C8: the classification boundaries are strict `< 1` and `>= 16`: index
1 is `Grade 1`, index 15 is `Grade 15`, index 16 is `Grade16Plus`, index 0 and
every negative index are `BeforeGrade1`; the printed line is the rendering of
the classification. -/
theorem classify_boundaries :
    classify 1 = .Grade 1 ∧ classify 15 = .Grade 15 ∧ classify 16 = .Grade16Plus ∧
      classify 0 = .BeforeGrade1 ∧
      (∀ i : ℤ, classify i = .BeforeGrade1 ↔ i < 1) ∧
      (∀ i : ℤ, classify i = .Grade16Plus ↔ 16 ≤ i) ∧
      (∀ i : ℤ, printGrade i = render (classify i)) :=
  ⟨by decide, by decide, by decide, by decide, fun i => (classify_cases i).1,
    fun i => (classify_cases i).2.1, printGrade_eq_render⟩

/-- Claim C9: for a text whose scan has at least one word, the program prints
exactly one line (one newline, at the end): `Before Grade 1` when the index is
below 1, `Grade 16+` when it is at least 16, and otherwise `Grade ` followed
by the decimal digits of the index, which is then between 1 and 15. -/
theorem main_output (x : List Char) (c : Counts) (hs : scan x = some c) (hw : 1 ≤ c.words) :
    ∃ (i : ℤ) (line : String), index c = some i ∧ main x = some (line ++ "\n") ∧
      '\n' ∉ line.toList ∧
      line = (if i < 1 then "Before Grade 1" else if 16 ≤ i then "Grade 16+"
        else "Grade " ++ Nat.repr i.toNat) ∧
      (¬ i < 1 ∧ ¬ 16 ≤ i ↔ 1 ≤ i ∧ i ≤ 15) := by
  have hi := index_eq c hw
  have hm := (analyze_eq x c _ hs hi).2
  generalize floatIndex c.letters c.words c.sentences = i at hi hm
  refine ⟨i, _, hi, ?_, ?_, rfl, by omega⟩
  · rw [hm, printGrade]
    split_ifs with h1 h2
    · rfl
    · rfl
    · have h3 : 1 ≤ i ∧ i ≤ 15 := by omega
      obtain ⟨h3, h4⟩ := h3
      interval_cases i <;> rfl
  · split_ifs with h1 h2
    · decide
    · decide
    · have h3 : 1 ≤ i ∧ i ≤ 15 := by omega
      obtain ⟨h3, h4⟩ := h3
      interval_cases i <;> decide

/-- Witness for claim C9: the text `"Hi there."`. -/
theorem main_output_witness :
    scan "Hi there.".toList = some ⟨7, 2, 1⟩ ∧ 1 ≤ (⟨7, 2, 1⟩ : Counts).words ∧
    ∃ (i : ℤ) (line : String), index ⟨7, 2, 1⟩ = some i ∧
      main "Hi there.".toList = some (line ++ "\n") ∧
      '\n' ∉ line.toList ∧
      line = (if i < 1 then "Before Grade 1" else if 16 ≤ i then "Grade 16+"
        else "Grade " ++ Nat.repr i.toNat) ∧
      (¬ i < 1 ∧ ¬ 16 ≤ i ↔ 1 ≤ i ∧ i ≤ 15) :=
  ⟨by decide, by decide, main_output "Hi there.".toList ⟨7, 2, 1⟩ (by decide) (by decide)⟩

/-- Claim C4 (as the code behaves): for the empty text and for every text of
spaces only the word count is zero, the single-precision division has a zero
divisor, and the program has no defined result. -/
theorem main_zero_words (n : ℕ) :
    scan (List.replicate n ' ') = some ⟨0, 0, 0⟩ ∧
      fdiv 24 (ofInt 24 0) (ofInt 24 0) = none ∧
      index ⟨0, 0, 0⟩ = none ∧
      main (List.replicate n ' ') = none ∧ analyze (List.replicate n ' ') = none := by
  have hs : scan (List.replicate n ' ') = some ⟨0, 0, 0⟩ := by
    rw [scan_eq]
    have h1 : headWord (List.replicate n ' ') + transitions (List.replicate n ' ') = 0 :=
      (words_eq_zero_iff _).mpr (fun c hc => List.eq_of_mem_replicate hc)
    have h2 : (List.replicate n ' ').countP isalpha = 0 := by
      rw [List.countP_eq_zero]
      intro c hc
      rw [List.eq_of_mem_replicate hc]
      decide
    have h3 : (List.replicate n ' ').countP isTerminator = 0 := by
      rw [List.countP_eq_zero]
      intro c hc
      rw [List.eq_of_mem_replicate hc]
      decide
    rw [h1, h2, h3]
  have hi : index ⟨0, 0, 0⟩ = none := index_zero_words _ rfl
  refine ⟨hs, by decide, hi, ?_, ?_⟩
  · simp [main, hs, hi]
  · simp [analyze, hs, hi]

/-! ## Claims about the index -/

theorem exactIndex_40_8_3 : exactIndex 40 8 3 = 3 := by
  unfold exactIndex roundHalfAway exactValue
  norm_num

set_option maxRecDepth 100000 in
/-- Counterexample to claim C7: a text with 40 letters, 8 words and 3 sentence
terminators.  The exact value of `0.0588 * L - 0.296 * S - 15.8` is `2.5`, which
rounds away from zero to 3; the program's double-precision value lies below
`2.5` and the program's index is 2. -/
theorem index_ne_exactIndex :
    scan "aaaaa. aaaaa. aaaaa. aaaaa aaaaa aaaaa aaaaa aaaaa".toList = some ⟨40, 8, 3⟩ ∧
      index ⟨40, 8, 3⟩ = some 2 ∧ exactIndex 40 8 3 = 3 ∧
      main "aaaaa. aaaaa. aaaaa. aaaaa aaaaa aaaaa aaaaa aaaaa".toList = some "Grade 2\n" :=
  ⟨by decide, by decide, exactIndex_40_8_3, by decide⟩

set_option maxRecDepth 100000 in
/-- Counterexample to claim C10: two count triples with the same
sentences-per-word ratio `1/6` and the same letters-per-word ratio `65/18`;
the first has index 1 and the second has index 0. -/
theorem index_not_monotone :
    ((774345 : ℚ) / 4646070 = 3 / 18) ∧ ((16777475 : ℚ) / 4646070 ≤ 65 / 18) ∧
      index ⟨16777475, 4646070, 774345⟩ = some 1 ∧ index ⟨65, 18, 3⟩ = some 0 :=
  ⟨by norm_num, by norm_num, by decide, by decide⟩

/-- Claim C7 (amended): for every text whose scan has at least one word, the
index is the nearest integer, halfway cases away from zero, to the value `v` of
`0.0588 * L - 0.296 * S - 15.8` computed in binary floating point:
`L = (letters / words) * 100` and `S = (sentences / words) * 100` with
non-truncating single-precision division and multiplication, the expression in
double precision, every operation and constant rounded to nearest, ties to
even.  The value `v` is within `errorBound` of the exact value, and the index
is the rounding of the exact value whenever the exact value is farther than
`errorBound` from every half-integer. -/
theorem index_eq_float_rounding (x : List Char) (c : Counts) (hs : scan x = some c)
    (hw : 1 ≤ c.words) :
    ∃ L S v : ℚ,
      L = rnd 24 (rnd 24 (rnd 24 c.letters / rnd 24 c.words) * rnd 24 100) ∧
      S = rnd 24 (rnd 24 (rnd 24 c.sentences / rnd 24 c.words) * rnd 24 100) ∧
      v = rnd 53 (rnd 53 (rnd 53 (rnd 53 (588 / 10000) * L) - rnd 53 (rnd 53 (296 / 1000) * S))
          - rnd 53 (158 / 10)) ∧
      index c = some (roundHalfAway v) ∧
      main x = some (printGrade (roundHalfAway v)) ∧
      |v - exactValue c.letters c.words c.sentences|
        ≤ errorBound c.letters c.words c.sentences ∧
      ((∀ k : ℤ, errorBound c.letters c.words c.sentences
          < |exactValue c.letters c.words c.sentences - (k + 1 / 2)|) →
        index c = some (exactIndex c.letters c.words c.sentences)) := by
  have hi := index_eq c hw
  have he := floatValue_err c.letters c.words c.sentences hw
  refine ⟨_, _, _, rfl, rfl, rfl, hi, (analyze_eq x c _ hs hi).2, he, ?_⟩
  intro hk
  rw [hi, floatIndex, exactIndex, roundHalfAway_eq_of_close he hk]

/-- Witness for claim C7 (amended): the text `"Hi there."`. -/
theorem index_eq_float_rounding_witness :
    scan "Hi there.".toList = some ⟨7, 2, 1⟩ ∧ 1 ≤ (⟨7, 2, 1⟩ : Counts).words ∧
    ∃ L S v : ℚ,
      L = rnd 24 (rnd 24 (rnd 24 (7 : ℕ) / rnd 24 (2 : ℕ)) * rnd 24 100) ∧
      S = rnd 24 (rnd 24 (rnd 24 (1 : ℕ) / rnd 24 (2 : ℕ)) * rnd 24 100) ∧
      v = rnd 53 (rnd 53 (rnd 53 (rnd 53 (588 / 10000) * L) - rnd 53 (rnd 53 (296 / 1000) * S))
          - rnd 53 (158 / 10)) ∧
      index ⟨7, 2, 1⟩ = some (roundHalfAway v) ∧
      main "Hi there.".toList = some (printGrade (roundHalfAway v)) ∧
      |v - exactValue 7 2 1| ≤ errorBound 7 2 1 ∧
      ((∀ k : ℤ, errorBound 7 2 1 < |exactValue 7 2 1 - (k + 1 / 2)|) →
        index ⟨7, 2, 1⟩ = some (exactIndex 7 2 1)) :=
  ⟨by decide, by decide,
    index_eq_float_rounding "Hi there.".toList ⟨7, 2, 1⟩ (by decide) (by decide)⟩

/-- Claim C10 (amended): for two count triples with at least one word each, the
same sentences-per-word ratio and letters-per-word ratio of the first at most
that of the second, the index of the first is at most the index of the second,
provided the two triples have the same word count and sentence count, or all
six counts are at most `2^24` (the integers single precision represents
exactly). -/
theorem index_monotone_in_letters (c₁ c₂ : Counts) (hw₁ : 1 ≤ c₁.words) (hw₂ : 1 ≤ c₂.words)
    (hs : (c₁.sentences : ℚ) / c₁.words = (c₂.sentences : ℚ) / c₂.words)
    (hl : (c₁.letters : ℚ) / c₁.words ≤ (c₂.letters : ℚ) / c₂.words)
    (hrep : (c₁.words = c₂.words ∧ c₁.sentences = c₂.sentences) ∨
      (c₁.letters ≤ 2 ^ 24 ∧ c₁.words ≤ 2 ^ 24 ∧ c₁.sentences ≤ 2 ^ 24 ∧
        c₂.letters ≤ 2 ^ 24 ∧ c₂.words ≤ 2 ^ 24 ∧ c₂.sentences ≤ 2 ^ 24)) :
    ∃ i₁ i₂, index c₁ = some i₁ ∧ index c₂ = some i₂ ∧ i₁ ≤ i₂ := by
  refine ⟨_, _, index_eq c₁ hw₁, index_eq c₂ hw₂, ?_⟩
  unfold floatIndex
  apply roundHalfAway_mono
  rcases hrep with ⟨hw, hse⟩ | ⟨h1, h2, h3, h4, h5, h6⟩
  · rw [← hw, ← hse]
    apply indexValueQ_mono_left
    apply perHundredQ_mono_left
    have hwq : (0 : ℚ) < c₁.words := by exact_mod_cast hw₁
    rw [← hw, div_le_div_iff_of_pos_right hwq] at hl
    exact_mod_cast hl
  · have hS : perHundredQ c₁.sentences c₁.words = perHundredQ c₂.sentences c₂.words := by
      rw [perHundredQ_exact _ _ h3 h2, perHundredQ_exact _ _ h6 h5, hs]
    rw [hS]
    apply indexValueQ_mono_left
    exact perHundredQ_mono_ratio _ _ _ _ h1 h2 h4 h5 hl

/-- Witness for claim C10 (amended): the triples `(5, 2, 1)` and `(10, 2, 1)`. -/
theorem index_monotone_in_letters_witness :
    ∃ i₁ i₂, index ⟨5, 2, 1⟩ = some i₁ ∧ index ⟨10, 2, 1⟩ = some i₂ ∧ i₁ ≤ i₂ :=
  index_monotone_in_letters ⟨5, 2, 1⟩ ⟨10, 2, 1⟩ (by decide) (by decide) (by norm_num)
    (by norm_num) (Or.inl ⟨rfl, rfl⟩)

/-! ## Claims about concrete texts, padding, bounds and additivity -/

set_option maxRecDepth 100000 in
/-- Counterexample to claim C11: for `"Congratulations! Today is your day."`
the scan does not yield 6 words and the program does not print `Grade 5`. -/
theorem congratulations_not_grade_5 :
    (scan "Congratulations! Today is your day.".toList).map Counts.words ≠ some 6 ∧
      main "Congratulations! Today is your day.".toList ≠ some "Grade 5\n" :=
  ⟨by decide, by decide⟩

set_option maxRecDepth 100000 in
/-- Claim C11 (amended): for `"Congratulations! Today is your day."` the scan
yields 29 letters, 5 words and 2 sentences, the index is 6, and the program
prints `Grade 6`. -/
theorem congratulations_grade_6 :
    scan "Congratulations! Today is your day.".toList = some ⟨29, 5, 2⟩ ∧
      index ⟨29, 5, 2⟩ = some 6 ∧
      main "Congratulations! Today is your day.".toList = some "Grade 6\n" :=
  ⟨by decide, by decide, by decide⟩

set_option maxRecDepth 100000 in
/-- Claim C12: for `"Would you like to play a game?"` the scan yields 23
letters, 7 words and 1 sentence, the index is `-1`, below 1, and the program
prints `Before Grade 1`. -/
theorem would_you_like_before_grade_1 :
    scan "Would you like to play a game?".toList = some ⟨23, 7, 1⟩ ∧
      index ⟨23, 7, 1⟩ = some (-1) ∧ (-1 : ℤ) < 1 ∧
      main "Would you like to play a game?".toList = some "Before Grade 1\n" :=
  ⟨by decide, by decide, by decide, by decide⟩

/-- Claim C13: a text without space characters and without sentence
terminators that has at least 6 ASCII letters scans to one word and no
sentence, and its result is `Grade16Plus`, printed as `Grade 16+`. -/
theorem single_word_grade_16_plus (x : List Char) (hsp : ∀ c ∈ x, c ≠ ' ')
    (hterm : ∀ c ∈ x, c ≠ '.' ∧ c ≠ '?' ∧ c ≠ '!')
    (hl : 6 ≤ x.countP isAsciiLetter) :
    ∃ c, scan x = some c ∧ c.words = 1 ∧ c.sentences = 0 ∧
      analyze x = some .Grade16Plus ∧ main x = some "Grade 16+\n" := by
  have hw : headWord x + transitions x = 1 := by
    rw [transitions_eq_zero x hsp]
    cases x with
    | nil => simp at hl
    | cons a t =>
      have ha : a ≠ ' ' := hsp a (by simp)
      simp [headWord, ha]
  have hs : x.countP isTerminator = 0 := by
    rw [List.countP_eq_zero]
    intro c hc
    obtain ⟨h1, h2, h3⟩ := hterm c hc
    simp [isTerminator, h1, h2, h3]
  have hl' : 6 ≤ x.countP isalpha := by
    have h : isalpha = isAsciiLetter := funext isalpha_eq_isAsciiLetter
    rw [h]; exact hl
  have hscan : scan x = some ⟨x.countP isalpha, 1, 0⟩ := by
    rw [scan_eq, hw, hs]
  have hi : index ⟨x.countP isalpha, 1, 0⟩ = some (floatIndex (x.countP isalpha) 1 0) :=
    index_eq ⟨x.countP isalpha, 1, 0⟩ (Nat.le_refl 1)
  have h19 := floatIndex_ge_19 (x.countP isalpha) hl'
  have hm := analyze_eq x _ _ hscan hi
  refine ⟨_, hscan, rfl, rfl, ?_, ?_⟩
  · rw [hm.1]
    exact congrArg some ((classify_cases _).2.1.mpr (by omega))
  · rw [hm.2, printGrade, if_neg (by omega), if_pos (by omega)]

/-- Witness for claim C13: the text `"Supercalifragilisticexpialidocious"`,
which has 34 letters. -/
theorem single_word_grade_16_plus_witness :
    (∀ c ∈ "Supercalifragilisticexpialidocious".toList, c ≠ ' ') ∧
    (∀ c ∈ "Supercalifragilisticexpialidocious".toList, c ≠ '.' ∧ c ≠ '?' ∧ c ≠ '!') ∧
    "Supercalifragilisticexpialidocious".toList.countP isAsciiLetter = 34 ∧
    ∃ c, scan "Supercalifragilisticexpialidocious".toList = some c ∧ c.words = 1 ∧
      c.sentences = 0 ∧
      analyze "Supercalifragilisticexpialidocious".toList = some .Grade16Plus ∧
      main "Supercalifragilisticexpialidocious".toList = some "Grade 16+\n" :=
  ⟨by decide, by decide, by decide,
    single_word_grade_16_plus "Supercalifragilisticexpialidocious".toList (by decide)
      (by decide) (by decide)⟩

/-- Claim C14: padding a text with any number of leading and trailing spaces
changes none of the three counts, hence neither the classification nor the
printed line. -/
theorem padding_invariant (t : List Char) (a b : ℕ) :
    scan (List.replicate a ' ' ++ t ++ List.replicate b ' ') = scan t ∧
      (scan (List.replicate a ' ' ++ t ++ List.replicate b ' ')).map Counts.words
        = (scan t).map Counts.words ∧
      analyze (List.replicate a ' ' ++ t ++ List.replicate b ' ') = analyze t ∧
      main (List.replicate a ' ' ++ t ++ List.replicate b ' ') = main t := by
  have h := scan_pad a b t
  have h2 := analyze_congr _ _ h
  exact ⟨h, by rw [h], h2.1, h2.2⟩

/-- Claim C15: at every loop index `i < len` the word-counting guard and the
whole loop body succeed with checked indexing, so no read falls outside
`[0, len-1]`; at the last index `x[i+1]` is out of range and the guard still
succeeds, so it is not read there; the loop runs over the indices
`0, ..., len-1`, each exactly once, and the scan returns. -/
theorem scan_reads_in_range (x : List Char) :
    (∀ i, i < x.length → ∃ b, wordStart x x.length i = some b) ∧
      (∀ i, i + 1 = x.length → x[i + 1]? = none ∧ ∃ b, wordStart x x.length i = some b) ∧
      (∀ i c, i < x.length → ∃ c', scanBody x x.length c i = some c') ∧
      (∃ c, scan x = some c) ∧
      scan x = (List.range x.length).foldlM (scanBody x x.length) ⟨0, 0, 0⟩ ∧
      (List.range x.length).length = x.length ∧ (List.range x.length).Nodup ∧
      (∀ i, i ∈ List.range x.length ↔ i < x.length) := by
  refine ⟨fun i hi => ⟨_, wordStart_eq x i hi⟩, ?_, ?_, ⟨_, scan_eq x⟩, rfl,
    List.length_range _, List.nodup_range _, fun i => List.mem_range⟩
  · intro i hi
    exact ⟨List.getElem?_eq_none (by omega), _, wordStart_eq x i (by omega)⟩
  · intro i c hi
    have hx : x[i]? = some x[i] := List.getElem?_eq_getElem hi
    simp [scanBody, hx, wordStart_eq x i hi]

/-- Claim C16: a text with a non-space character and no ASCII letter has at
least one word and no letter, its index is at most `-16`, and its result is
`BeforeGrade1`. -/
theorem no_letters_before_grade_1 (x : List Char) (hw : ∃ ch ∈ x, ch ≠ ' ')
    (hl : ∀ ch ∈ x, isAsciiLetter ch = false) :
    ∃ c i, scan x = some c ∧ 1 ≤ c.words ∧ c.letters = 0 ∧ index c = some i ∧ i ≤ -16 ∧
      analyze x = some .BeforeGrade1 ∧ main x = some "Before Grade 1\n" := by
  obtain ⟨c, hs, hwc⟩ := scan_words_pos x hw
  have hl0 : c.letters = 0 := by
    have h1 := scan_eq x
    rw [hs] at h1
    have h2 := congrArg Counts.letters (Option.some.inj h1)
    rw [h2]
    show x.countP isalpha = 0
    rw [List.countP_eq_zero]
    intro ch hch
    rw [isalpha_eq_isAsciiLetter, hl ch hch]
    simp
  have hi := index_eq c hwc
  have hb : floatIndex c.letters c.words c.sentences ≤ -16 := by
    rw [hl0]; exact floatIndex_no_letters _ _
  have hm := analyze_eq x c _ hs hi
  refine ⟨c, _, hs, hwc, hl0, hi, hb, ?_, ?_⟩
  · rw [hm.1]
    exact congrArg some ((classify_cases _).1.mpr (by omega))
  · rw [hm.2, printGrade, if_pos (by omega)]

/-- Witness for claim C16: the text `"42 + 7 = 49."`. -/
theorem no_letters_before_grade_1_witness :
    (∃ ch ∈ "42 + 7 = 49.".toList, ch ≠ ' ') ∧
    (∀ ch ∈ "42 + 7 = 49.".toList, isAsciiLetter ch = false) ∧
    ∃ c i, scan "42 + 7 = 49.".toList = some c ∧ 1 ≤ c.words ∧ c.letters = 0 ∧
      index c = some i ∧ i ≤ -16 ∧
      analyze "42 + 7 = 49.".toList = some .BeforeGrade1 ∧
      main "42 + 7 = 49.".toList = some "Before Grade 1\n" :=
  ⟨⟨'4', by decide, by decide⟩, by decide,
    no_letters_before_grade_1 "42 + 7 = 49.".toList ⟨'4', by decide, by decide⟩ (by decide)⟩

/-- Claim C17: the letter, word and sentence counts of `a ++ " " ++ b` are the
sums of the corresponding counts of `a` and of `b`, for all texts `a` and `b`. -/
theorem counts_additive (a b : List Char) :
    ∃ ca cb cab, scan a = some ca ∧ scan b = some cb ∧
      scan (a ++ " ".toList ++ b) = some cab ∧
      cab.letters = ca.letters + cb.letters ∧
      cab.words = ca.words + cb.words ∧
      cab.sentences = ca.sentences + cb.sentences := by
  have e : a ++ " ".toList ++ b = a ++ ' ' :: b := by
    show a ++ [' '] ++ b = a ++ ' ' :: b
    simp
  refine ⟨_, _, _, scan_eq a, scan_eq b, scan_eq _, ?_, ?_, ?_⟩
  · show (a ++ " ".toList ++ b).countP isalpha = a.countP isalpha + b.countP isalpha
    rw [e, List.countP_append, List.countP_cons]
    simp [isalpha]
  · show headWord (a ++ " ".toList ++ b) + transitions (a ++ " ".toList ++ b)
      = (headWord a + transitions a) + (headWord b + transitions b)
    rw [e, words_join]
  · show (a ++ " ".toList ++ b).countP isTerminator
      = a.countP isTerminator + b.countP isTerminator
    rw [e, List.countP_append, List.countP_cons]
    simp [isTerminator]

end Readability
